import Mathlib

/-!
Verification of the lcapy schematic layout engine (src/lcapy/schematic.py and
the placement part of src/lcapy/schemcpts.py) against its specification.

The engine resolves one-dimensional coordinates for circuit connection points
from relative placement constraints.  We embed the Python classes Cnodes,
Gedge, Gnode and Graph shallowly:

  - Python dicts become association lists in insertion order (the source is
    Python 2 era, where dict iteration order is an implementation detail; we
    fix insertion order as the deterministic model and note where this is an
    abstraction).
  - The mutable object graph (nodes holding edge lists and transient distance
    fields, edges holding node references) becomes a value of type Graph with
    edges naming their endpoints by key; mutation becomes explicit state
    passing.
  - The Cnodes tuples (one shared tuple per merged group, reassigned on merge)
    become Finset String values: the tuple element order, produced by Python
    set iteration, is abstracted away since only membership is ever used by
    the engine (tuple order only affects diagnostic strings).
  - Python floats become rationals.
  - The recursive depth first relaxation, whose recursion depth is bounded at
    runtime by the Python recursion limit (RecursionError, a subclass of
    RuntimeError), becomes fuel indexed recursion; fuel exhaustion models the
    recursion limit being hit.
  - Exceptions become an Except monad with a structured error type.  Message
    strings whose only variable content is the graph name (and a dump of the
    graph node dictionary) carry that content as structured fields.
-/

/- The core rational operations are marked irreducible, which stops the
decide tactic from evaluating concrete runs of the engine; restore kernel
style reducibility for them (the kernel itself never respected the marking,
so no proof changes meaning). -/
set_option allowUnsafeReducibility true in
attribute [semireducible] Rat.add Rat.sub Rat.mul Rat.div Rat.neg Rat.blt
  Rat.inv Rat.divInt mkRat Rat.maybeNormalize Rat.normalize

/-- Keys of the Graph dictionary: the synthetic markers are plain strings
(Python uses the strings start and end) while merged common-node groups are
the shared Cnodes tuples, modelled by their member sets. -/
inductive Key where
  | str : String → Key
  | grp : Finset String → Key
deriving DecidableEq

/-- Python exceptions raised (or raisable) by the engine.  RecursionError is
a subclass of RuntimeError in Python, so an except RuntimeError clause also
catches it.  KeyError carries the graph name and the list of graph node keys
(the data interpolated into the message: the axis name and the graph dump).
RuntimeError carries the graph (axis) name interpolated into the dodgy graph
message. -/
inductive PyErr where
  | RecursionError : PyErr
  | RuntimeError : String → PyErr
  | ValueError : String → PyErr
  | KeyError : String → List Key → PyErr
  | TypeError : PyErr
  | AttributeError : PyErr
deriving DecidableEq

deriving instance DecidableEq for Except

/-- class Gedge: a directed constraint edge.  In Python the from_node and
to_node fields are Gnode object references; here they are the node keys. -/
structure Gedge where
  from_node : Key
  to_node : Key
  size : ℚ
  stretch : Bool
deriving DecidableEq

/-- class Gnode: one vertex of the placement graph, with its transient
longest-path state (dist, prev, next) and the final resolved distance
(known_dist). -/
structure Gnode where
  name : Key
  prev : Option Gedge
  next : Option Gedge
  dist : ℚ
  known_dist : Option ℚ
  fedges : List Gedge
  redges : List Gedge
deriving DecidableEq

/-- Gnode.__init__ : dist starts at 0, everything else empty. -/
def Gnode.init (k : Key) : Gnode :=
  { name := k, prev := none, next := none, dist := 0, known_dist := none
    fedges := [], redges := [] }

/-- Association list lookup for the graph node dictionary. -/
def alook (l : List (Key × Gnode)) (k : Key) : Option Gnode :=
  match l with
  | [] => none
  | (k₁, v) :: t => if k₁ = k then some v else alook t k

/-- Association list update (keys are unique; the first binding is updated,
preserving insertion order, like mutating the value in a Python dict). -/
def aupd (l : List (Key × Gnode)) (k : Key) (f : Gnode → Gnode) :
    List (Key × Gnode) :=
  match l with
  | [] => []
  | (k₁, v) :: t => if k₁ = k then (k₁, f v) :: t else (k₁, v) :: aupd t k f

/-- Cnodes.link : make n1 and n2 share a common node.  The Python code builds
newset as the deduplicated concatenation of the two tuples and reassigns it to
every member of either old tuple. -/
def Cnodes.link (g : String → Finset String) (n1 n2 : String) :
    String → Finset String :=
  let set1 := g n1
  let set2 := g n2
  let newset := set1 ∪ set2
  fun n => if n ∈ set1 ∨ n ∈ set2 then newset else g n

/-- class Graph: the per-axis placement graph.  domain lists the Cnodes keys
(all network node names, in insertion order) and cnodes gives each name its
current shared group; nodes is the graph dictionary in insertion order. -/
structure Graph where
  name : String
  domain : List String
  cnodes : String → Finset String
  nodes : List (Key × Gnode)

/-- Graph.__init__ : Cnodes maps every network node to its singleton tuple;
the graph dictionary starts empty. -/
def Graph.init (name : String) (nodes : List String) : Graph :=
  { name := name, domain := nodes, cnodes := fun n => {n}, nodes := [] }

/-- Total node lookup; the engine only dereferences keys that are present
(edge endpoints are inserted by Graph.add before the edge), so the default is
never reached on the executions we model.  Where the source detects a missing
key (analyse extraction) we use alook directly. -/
def Graph.getN (g : Graph) (k : Key) : Gnode :=
  (alook g.nodes k).getD (Gnode.init k)

/-- Graph.link : delegate to Cnodes.link. -/
def Graph.link (g : Graph) (n1 n2 : String) : Graph :=
  { g with cnodes := Cnodes.link g.cnodes n1 n2 }

/-- Graph.add_node : insert a fresh Gnode if the key is absent. -/
def Graph.add_node (g : Graph) (k : Key) : Graph :=
  if (alook g.nodes k).isSome then g
  else { g with nodes := g.nodes ++ [(k, Gnode.init k)] }

/-- Graph.add_edges : append the forward edge to node1 and the reversed edge
to node2.  Note the reversed edge stored on node2 has from_node = node2 and
to_node = node1, exactly as in the source. -/
def Graph.add_edges (g : Graph) (k1 k2 : Key) (size : ℚ) (stretch : Bool) :
    Graph :=
  let g1 := { g with
    nodes := aupd g.nodes k1 (fun nd =>
      { nd with fedges := nd.fedges ++ [Gedge.mk k1 k2 size stretch] }) }
  { g1 with
    nodes := aupd g1.nodes k2 (fun nd =>
      { nd with redges := nd.redges ++ [Gedge.mk k2 k1 size stretch] }) }

/-- Graph.add : zero sizes are dropped, negative sizes swap the endpoints and
negate, names present in Cnodes are replaced by their group tuple, then both
endpoints are ensured present and the edge pair is appended. -/
def Graph.add (g : Graph) (n1 n2 : String) (size : ℚ) (stretch : Bool) :
    Graph :=
  if size = 0 then g
  else
    let p := if size < 0 then (n2, n1, -size) else (n1, n2, size)
    let k1 := if p.1 ∈ g.domain then Key.grp (g.cnodes p.1) else Key.str p.1
    let k2 := if p.2.1 ∈ g.domain then Key.grp (g.cnodes p.2.1)
              else Key.str p.2.1
    ((g.add_node k1).add_node k2).add_edges k1 k2 p.2.2 stretch

/-- Graph.add_start_nodes : if absent, add the synthetic start and end nodes
and connect every real node lacking incoming edges from start, and every real
node lacking outgoing edges to end, with size 0 non-stretch edges.  The
Python 2 source snapshots self.values() before inserting start and end, so
the loop ranges over the real nodes only. -/
def augStep (gacc : Graph) (k : Key) : Graph :=
  let gacc1 :=
    if (gacc.getN k).redges = [] then
      gacc.add_edges (Key.str "start") k 0 false
    else gacc
  if (gacc1.getN k).fedges = [] then
    gacc1.add_edges k (Key.str "end") 0 false
  else gacc1

def Graph.add_start_nodes (g : Graph) : Graph :=
  if (alook g.nodes (Key.str "start")).isSome then g
  else
    let snapshot := g.nodes.map Prod.fst
    let g0 := (g.add_node (Key.str "start")).add_node (Key.str "end")
    snapshot.foldl augStep g0

/-- One node of the reset loop shared by both path computations: dist -1 and
cleared prev and next pointers (known_dist is untouched). -/
def resetNode (nd : Gnode) : Gnode :=
  { nd with dist := -1, prev := none, next := none }

/-- Reset loop shared by both path computations. -/
def Graph.reset (g : Graph) : Graph :=
  { g with nodes := g.nodes.map (fun p => (p.1, resetNode p.2)) }

/-- Set the working distance of one node. -/
def Graph.setDist (g : Graph) (k : Key) (d : ℚ) : Graph :=
  { g with nodes := aupd g.nodes k (fun nd => { nd with dist := d }) }

/-- Set the resolved distance of one node. -/
def Graph.setKnown (g : Graph) (k : Key) (d : ℚ) : Graph :=
  { g with nodes := aupd g.nodes k (fun nd => { nd with known_dist := some d }) }

/-- The recursive closure named traverse inside Graph.longest_forward_path
(renamed traverseF here to avoid clashing with a library name): relax every
forward edge of the node, recursing into any target whose distance strictly
improves.  The Python for loop, whose body may raise through a recursive
call, is a fold over the edge list threading the graph state and
short-circuiting on error.  The node distance is reread on every iteration,
as in the source (deeper recursion may have changed it).  Each Python stack
frame consumes one unit of fuel; exhausted fuel is the recursion limit,
i.e. RecursionError. -/
def traverseF : Nat → Graph → Key → Except PyErr Graph
  | 0, _, _ => .error .RecursionError
  | fuel + 1, g, k =>
    (g.getN k).fedges.foldl (fun acc e =>
      match acc with
      | .error err => .error err
      | .ok g =>
        let dist := (g.getN k).dist + e.size
        if dist > (g.getN e.to_node).dist then
          let g1 := { g with nodes := aupd g.nodes e.to_node (fun nd =>
            { nd with dist := dist, prev := some e }) }
          let g2 := { g1 with nodes := aupd g1.nodes k (fun nd =>
            { nd with next := some e }) }
          traverseF fuel g2 e.to_node
        else .ok g) (.ok g)

/-- Graph.longest_forward_path : reset, seed the start node with distance 0,
traverse; a RuntimeError (in Python, RecursionError included) is converted to
the dodgy-graph RuntimeError naming the axis. -/
def Graph.longest_forward_path (fuel : Nat) (g : Graph) (start : Key) :
    Except PyErr Graph :=
  let g1 := (g.reset).setDist start 0
  match traverseF fuel g1 start with
  | .error _ => .error (.RuntimeError g.name)
  | .ok g2 => .ok g2

/-- The recursive closure named traverse inside Graph.longest_path_to_known:
identical
relaxation, but a node that already has a resolved distance is a boundary and
is not expanded, and the direction selects forward or reversed edges. -/
def traverseK : Nat → Graph → Key → Bool → Except PyErr Graph
  | 0, _, _, _ => .error .RecursionError
  | fuel + 1, g, k, forward =>
    if (g.getN k).known_dist ≠ none then .ok g
    else
      (if forward then (g.getN k).fedges else (g.getN k).redges).foldl
        (fun acc e =>
          match acc with
          | .error err => .error err
          | .ok g =>
            let dist := (g.getN k).dist + e.size
            if dist > (g.getN e.to_node).dist then
              let g1 := { g with nodes := aupd g.nodes e.to_node (fun nd =>
                { nd with dist := dist, prev := some e }) }
              let g2 := { g1 with nodes := aupd g1.nodes k (fun nd =>
                { nd with next := some e }) }
              traverseK fuel g2 e.to_node forward
            else .ok g) (.ok g)

/-- Graph.longest_path_to_known : reset, seed, traverse.  There is no except
clause here: a recursion limit hit propagates as a raw RecursionError. -/
def Graph.longest_path_to_known (fuel : Nat) (g : Graph) (start : Key)
    (forward : Bool) : Except PyErr Graph :=
  let g1 := (g.reset).setDist start 0
  traverseK fuel g1 start forward

/-- Graph.assign_fixed : try to fix the position of one unresolved node from
a non-stretch edge to an already resolved neighbour.  First the forward edges
are scanned: the first edge that is non-stretch, whose target is not in
unknown and is not the end marker, fixes the distance to the target's working
dist minus the edge size.  Then the reversed edges are scanned with the
symmetric condition; note that the source tests edge.from_node there, which
for a reversed edge is the node itself (the field layout of add_edges), and
we reproduce that test verbatim.  Returns the updated graph on success. -/
def Graph.assign_fixed (g : Graph) (k : Key) (unknown : List Key) :
    Option Graph :=
  match (g.getN k).fedges.find? (fun e =>
      !e.stretch && !(unknown.contains e.to_node)
        && !(e.to_node = Key.str "end" : Bool)) with
  | some e => some (g.setKnown k ((g.getN e.to_node).dist - e.size))
  | none =>
    match (g.getN k).redges.find? (fun e =>
        !e.stretch && !(unknown.contains e.from_node)
          && !(e.from_node = Key.str "start" : Bool)) with
    | some e => some (g.setKnown k ((g.getN e.from_node).dist + e.size))
    | none => none

/-- One scan of the fixed-propagation while loop: find the first node of
unknown that assign_fixed succeeds on.  The source iterates a Python set
here, whose order is an implementation detail (hash dependent); the
embedding fixes the insertion order of the graph dictionary, consistently
with the dict-order convention above. -/
def fixedScan (g : Graph) (unknown : List Key) :
    List Key → Option (Key × Graph)
  | [] => none
  | k :: t =>
    match g.assign_fixed k unknown with
    | some g1 => some (k, g1)
    | none => fixedScan g unknown t

/-- The fixed-propagation while loop of Graph.analyse: repeat until a full
scan makes no change (each successful scan resolves one node and removes it
from unknown, so the list length bounds the iteration count). -/
def fixedLoop : Nat → Graph → List Key → Graph × List Key
  | 0, g, unknown => (g, unknown)
  | fuel + 1, g, unknown =>
    match fixedScan g unknown unknown with
    | none => (g, unknown)
    | some (k, g1) => fixedLoop fuel g1 (unknown.erase k)

/-- The walk back from the end node along prev edges in Graph.analyse: every
node on the longest path gets its known_dist set to its working dist and is
removed from unknown, stopping at the start marker.  A missing prev pointer
on a non-start node would be a Python AttributeError (None.from_node); it
cannot occur after a successful longest_forward_path, but the embedding
reports it faithfully as an error. -/
def pathWalk : Nat → Graph → List Key → Key → Except PyErr (Graph × List Key)
  | 0, _, _, _ => .error .RecursionError
  | fuel + 1, g, unknown, k =>
    if k = Key.str "start" then .ok (g, unknown)
    else
      let g1 := g.setKnown k (g.getN k).dist
      let unknown1 := unknown.erase k
      match (g1.getN k).prev with
      | none => .error .AttributeError
      | some e => pathWalk fuel g1 unknown1 e.from_node

/-- The while loop that follows next pointers in the stretch-distribution
phase of Graph.analyse, accumulating the number of stretchable edges and the
total size until a node with no next pointer is reached.  Returns (stretch
count, accumulated distance, final node key). -/
def walkNext : Nat → Graph → Key → Nat × ℚ × Key
  | 0, _, k => (0, 0, k)
  | fuel + 1, g, k =>
    match (g.getN k).next with
    | none => (0, 0, k)
    | some e =>
      let (s, d, f) := walkNext fuel g e.to_node
      (s + (if e.stretch then 1 else 0), d + e.size, f)

/-- The body of the stretch-distribution for loop of Graph.analyse for one
unresolved node: run longest_path_to_known forward, follow the next chain to
get (fstretches, fdist, to_node); run it backward for (rstretches, rdist,
from_node); then resolve.  If the backward walk ended at the start marker the
node only has a forward bound; if the forward walk ended at the end marker it
only has a backward bound; otherwise both bounds are real and the slack is
distributed over the stretchable edges.  Reading known_dist of a node that
has none is a Python TypeError (None arithmetic).  The walk fuel is the node
count, which bounds any acyclic next chain. -/
def Graph.stretch_step (fuel : Nat) (g : Graph) (k : Key) :
    Except PyErr Graph :=
  match g.longest_path_to_known fuel k true with
  | .error err => .error err
  | .ok g1 =>
    let wf := g1.nodes.length
    let fwd := walkNext wf g1 k
    let fstretches : Nat := fwd.1
    let fdist : ℚ := fwd.2.1
    let toKey : Key := fwd.2.2
    match g1.longest_path_to_known fuel k false with
    | .error err => .error err
    | .ok g2 =>
      let bwd := walkNext wf g2 k
      let rstretches : Nat := bwd.1
      let rdist : ℚ := bwd.2.1
      let fromKey : Key := bwd.2.2
      if fromKey = Key.str "start" then
        match (g2.getN toKey).known_dist with
        | none => .error .TypeError
        | some td => .ok (g2.setKnown k (td - fdist))
      else if toKey = Key.str "end" then
        match (g2.getN fromKey).known_dist with
        | none => .error .TypeError
        | some fd => .ok (g2.setKnown k (fd + rdist))
      else
        match (g2.getN toKey).known_dist, (g2.getN fromKey).known_dist with
        | some td, some fd =>
          let separation := td - fd
          let extent := fdist + rdist
          if extent > separation then
            .error (.ValueError "Inconsistent graph, component will not fit")
          else if rstretches = 0 then .ok (g2.setKnown k (fd + rdist))
          else if fstretches = 0 then .ok (g2.setKnown k (td - fdist))
          else
            let stretch := (separation - extent) /
              ((fstretches : ℚ) + (rstretches : ℚ))
            .ok (g2.setKnown k (fd + rdist + stretch * (rstretches : ℚ)))
        | _, _ => .error .TypeError

/-- The stretch-distribution for loop over the remaining unknown nodes
(again a Python set iteration, embedded in insertion order). -/
def stretchPass (fuel : Nat) (g : Graph) : List Key → Except PyErr Graph
  | [] => .ok g
  | k :: t =>
    match g.stretch_step fuel k with
    | .error err => .error err
    | .ok g1 => stretchPass fuel g1 t

/-- The extraction loop of Graph.analyse: map every network node name to the
known_dist of its group's graph node.  A group with no graph node at all is
the Python KeyError, reraised with the graph name and the graph dump (we
carry the node key list, the data the dump is generated from).  A group node
whose known_dist is still none yields a none coordinate (Python would store
None in the position dictionary without complaint). -/
def extractGo (g : Graph) : List String →
    Except PyErr (List (String × Option ℚ))
  | [] => .ok []
  | n :: t =>
    match alook g.nodes (Key.grp (g.cnodes n)) with
    | none => .error (.KeyError g.name (g.nodes.map Prod.fst))
    | some nd =>
      match extractGo g t with
      | .error err => .error err
      | .ok rest => .ok ((n, nd.known_dist) :: rest)

def Graph.extract (g : Graph) : Except PyErr (List (String × Option ℚ)) :=
  extractGo g g.domain

/-- Graph.analyse : the whole resolver for one axis.  Augment with the
synthetic start and end nodes; if there is nothing to place, every network
node gets position 0 and the extent is 0.  Otherwise run the critical path,
walk it back fixing those nodes, run fixed propagation, then stretch
distribution, and extract positions; the reported extent is the resolved
distance of the end node.  (The optional stage argument of the source, used
only by the dot debugging output, is not modelled.) -/
def Graph.analyse (fuel : Nat) (g : Graph) :
    Except PyErr (List (String × Option ℚ) × Option ℚ) :=
  let g1 := g.add_start_nodes
  let unknown := (g1.nodes.map Prod.fst).filter
    (fun k => !(k = Key.str "start" : Bool) && !(k = Key.str "end" : Bool))
  if unknown = [] then
    .ok (g1.domain.map (fun n => (n, some 0)), some 0)
  else
    match g1.longest_forward_path fuel (Key.str "start") with
    | .error err => .error err
    | .ok g2 =>
      match pathWalk (g2.nodes.length + 1) g2 unknown (Key.str "end") with
      | .error err => .error err
      | .ok (g3, unknown1) =>
        let fl := fixedLoop unknown1.length g3 unknown1
        match stretchPass fuel fl.1 fl.2 with
        | .error err => .error err
        | .ok g4 =>
          match g4.extract with
          | .error err => .error err
          | .ok pos => .ok (pos, (g4.getN (Key.str "end")).known_dist)

/-- A component as the placement code sees it: its drawing node names in
order, its size multiplier, and its stretch flag (schemcpts.Cpt: dvnodes,
size, stretch).  The per-axis transformed coordinates (xvals or yvals) are
supplied separately, as in the source. -/
structure Cpt where
  dvnodes : List String
  size : ℚ
  stretch : Bool

/-- Stable ascending insertion by value (np.argsort is ascending; the source
then reverses the index array). -/
def insertAsc (p : String × ℚ) : List (String × ℚ) → List (String × ℚ)
  | [] => [p]
  | q :: t => if p.2 < q.2 then p :: q :: t else q :: insertAsc p t

/-- The for loop of Cpt.place, with the previous point carried beside the
remaining list.  Each iteration computes value = (vals[m2] - vals[m1]) *
size and then runs graphs.add(self, n1.name, n2.name, value, self.stretch):
that call passes five arguments, but Graph.add of schematic.py takes only
(n1, n2, size, stretch), so the first iteration raises TypeError before any
edge is inserted.  A loop over fewer than two points never reaches the call
and returns normally. -/
def placePairs (_size : ℚ) (_stretch : Bool) :
    Graph → (String × ℚ) → List (String × ℚ) → Except PyErr Graph
  | g, _, [] => .ok g
  | _, _, _ :: _ => .error .TypeError

/-- Cpt.place : sort the component's points by their axis value, descending,
and run the edge-adding loop over the consecutive pairs (which raises on the
first pair, see placePairs). -/
def Cpt.place (c : Cpt) (g : Graph) (vals : List ℚ) : Except PyErr Graph :=
  let pts := c.dvnodes.zip vals
  match (pts.foldl (fun acc p => insertAsc p acc) []).reverse with
  | [] => .ok g
  | p :: t => placePairs c.size c.stretch g p t

/-- The edge pass as the specification words it (and as the source call
evidently intends): the loop of Cpt.place with the stray self argument
dropped, so each consecutive pair yields a well-formed Graph.add call with
size (vals[m2] - vals[m1]) * size, non-positive in descending order and
swapped and negated by Graph.add.  Kept separate from the faithful
placePairs to compare the claimed behaviour with the crashing source. -/
def placePairsIntended (size : ℚ) (stretch : Bool) :
    Graph → (String × ℚ) → List (String × ℚ) → Graph
  | g, _, [] => g
  | g, p1, p2 :: t =>
    placePairsIntended size stretch
      (g.add p1.1 p2.1 ((p2.2 - p1.2) * size) stretch) p2 t

/-- Cpt.place as the specification words it: the sort of Cpt.place followed
by the intended (non-crashing) edge-adding loop. -/
def Cpt.place_intended (c : Cpt) (g : Graph) (vals : List ℚ) : Graph :=
  let pts := c.dvnodes.zip vals
  match (pts.foldl (fun acc p => insertAsc p acc) []).reverse with
  | [] => g
  | p :: t => placePairsIntended c.size c.stretch g p t

/-- The shared body of Cpt.xlink and Cpt.ylink: link every pair of the
component's points whose axis values are equal. -/
def Cpt.link_pass (c : Cpt) (g : Graph) (vals : List ℚ) : Graph :=
  let rec go (g : Graph) : List (String × ℚ) → Graph
    | [] => g
    | p :: t =>
      go (t.foldl (fun acc q =>
        if q.2 = p.2 then acc.link p.1 q.1 else acc) g) t
  go g (c.dvnodes.zip vals)

/-! Concrete graphs used by the claim theorems. -/

/-- Scenario 2 of the specification, run through the source pipeline:
components r1 (nodes a-b, size 1) and r2 (nodes b-c, size 2), both
rightward with point offsets 0 and 1, through the alignment pass and the
(crashing) edge pass on the horizontal axis. -/
def seriesChainScenario : Except PyErr Graph :=
  let g := Graph.init "horizontal" ["a", "b", "c"]
  let r1 : Cpt := Cpt.mk ["a", "b"] 1 true
  let r2 : Cpt := Cpt.mk ["b", "c"] 2 true
  let g := r1.link_pass g [0, 1]
  let g := r2.link_pass g [0, 1]
  match r1.place g [0, 1] with
  | .error err => .error err
  | .ok g => r2.place g [0, 1]

/-- Scenario 2 with the intended edge pass: what the pipeline builds once
the stray argument of the graphs.add call is dropped. -/
def seriesChainGraphIntended : Graph :=
  let g := Graph.init "horizontal" ["a", "b", "c"]
  let r1 : Cpt := Cpt.mk ["a", "b"] 1 true
  let r2 : Cpt := Cpt.mk ["b", "c"] 2 true
  let g := r1.link_pass g [0, 1]
  let g := r2.link_pass g [0, 1]
  let g := r1.place_intended g [0, 1]
  r2.place_intended g [0, 1]

/-- The scenario chain built directly with Graph.add, the faithful edge
constructor (the edges the intended edge pass would produce): a to b size 1
and b to c size 2, both stretchable. -/
def chainGraph : Graph :=
  let g := Graph.init "horizontal" ["a", "b", "c"]
  let g := g.add "a" "b" 1 true
  g.add "b" "c" 2 true

/-- A graph with a two-deep rigid chain hanging off the critical path: the
critical path is start, C, K, end (C to K has size 5); A hangs off K by a
rigid edge of size 1, and B hangs off A by a rigid edge of size 1.  A and B
are resolved by fixed propagation, A from K and then B from A. -/
def rigidChainGraph : Graph :=
  let g := Graph.init "horizontal" ["C", "K", "A", "B"]
  let g := g.add "C" "K" 5 false
  let g := g.add "A" "K" 1 false
  g.add "B" "A" 1 false

/-- The same constraint multiset as orderGraphB, with node X's two rigid
edges (to K1 and to K2) inserted in the order X-K1 then X-K2. -/
def orderGraphA : Graph :=
  let g := Graph.init "horizontal" ["A", "K1", "K2", "X"]
  let g := g.add "A" "K1" 1 false
  let g := g.add "K1" "K2" 5 false
  let g := g.add "X" "K1" 1 false
  g.add "X" "K2" 1 false

/-- The same constraint multiset as orderGraphA, with node X's two rigid
edges inserted in the opposite order. -/
def orderGraphB : Graph :=
  let g := Graph.init "horizontal" ["A", "K1", "K2", "X"]
  let g := g.add "A" "K1" 1 false
  let g := g.add "K1" "K2" 5 false
  let g := g.add "X" "K2" 1 false
  g.add "X" "K1" 1 false

/-- The error of a computation, if it raised one (used to state properties
of computations whose success value, a Graph, contains the equivalence map
and so has no decidable equality). -/
def exceptErr {A : Type} : Except PyErr A → Option PyErr
  | .error e => some e
  | .ok _ => none

/-- All forward edges stored anywhere in the graph. -/
def Graph.gedges (g : Graph) : List Gedge :=
  g.nodes.flatMap (fun p => p.2.fedges)

/-- A graph whose stretch-distribution phase meets a node that cannot fit:
the critical path start, C, K, end has length 10; A is rigidly one unit
before K (resolved distance 9 by fixed propagation); Y sits between A and K
on two stretchable edges of minimum lengths 2 and 2, needing extent 4 inside
the separation 10 - 9 = 1. -/
def overConstrainedGraph : Graph :=
  let g := Graph.init "horizontal" ["C", "K", "A", "Y"]
  let g := g.add "C" "K" 10 false
  let g := g.add "A" "K" 1 false
  let g := g.add "A" "Y" 2 true
  g.add "Y" "K" 2 true

/-- A graph whose stretch-distribution phase resolves X with a rigid
backward side: critical path start, K1, M, K2, end with K1 at 0 and K2 at 5;
X is reached from K1 by a rigid edge of size 1 (the backward side of the
search, zero stretchable edges) and reaches K2 by a stretchable edge of
size 1 (the forward side, one stretchable edge). -/
def rigidBackwardGraph : Graph :=
  let g := Graph.init "horizontal" ["K1", "M", "K2", "X"]
  let g := g.add "K1" "M" 2 false
  let g := g.add "M" "K2" 3 false
  let g := g.add "K1" "X" 1 false
  g.add "X" "K2" 1 true

/-- Like rigidBackwardGraph but with both of X's edges stretchable, so the
slack 5 - 2 = 3 is split over the two stretchable edges. -/
def slackBothSidesGraph : Graph :=
  let g := Graph.init "horizontal" ["K1", "M", "K2", "X"]
  let g := g.add "K1" "M" 2 false
  let g := g.add "M" "K2" 3 false
  let g := g.add "K1" "X" 1 true
  g.add "X" "K2" 1 true

/-- A graph in which the network node c is known to the equivalence table
but no placement edge ever touches it, so its group never becomes a graph
node. -/
def unattachedGraph : Graph :=
  let g := Graph.init "horizontal" ["a", "b", "c"]
  g.add "a" "b" 1 false

/-- The two-edge directed cycle of the specification: A to B of length 1 and
B to A of length 1, both rigid. -/
def cyclicGraph : Graph :=
  let g := Graph.init "horizontal" []
  let g := g.add "A" "B" 1 false
  g.add "B" "A" 1 false

/-- C2: the claim describes the series scenario resolving distance(a) = 0,
distance(b) = 1, distance(c) = 3.  The source cannot run it: the edge pass
call graphs.add(self, n1.name, n2.name, value, self.stretch) in Cpt.place
passes five arguments to the four-parameter Graph.add of schematic.py, so
the scenario raises TypeError at the first pair of points and no layout is
produced.  With the stray argument dropped, which is the evident intent and
exactly the edge pass the claim and specification describe, the layout
resolves precisely as claimed (with axis extent 3). -/
theorem claim_C2_edge_pass_type_error :
    exceptErr seriesChainScenario = some .TypeError ∧
    seriesChainGraphIntended.analyse 100 =
      .ok ([("a", some 0), ("b", some 1), ("c", some 3)], some 3) := by
  refine ⟨by decide, by decide⟩

/-- C1: the claim asserts that after the resolver completes, every rigid
edge between resolved groups is exact, and that fixed propagation fixes a
group at its resolved neighbour's resolved distance plus or minus the edge
length.  The code instead reads the neighbour's transient longest-path dist.
On rigidChainGraph the run succeeds with C at 0, K at 5, A at 4 and B at 0:
A is fixed from K (whose dist equals its resolved distance 5), but B is
fixed from A's stale working dist 1, giving 0 instead of A's resolved 4
minus 1 = 3; the rigid edge from B's group to A's group of length 1 ends up
spanning 4. -/
theorem claim_C1_rigid_edge_not_exact :
    rigidChainGraph.analyse 100 =
      .ok ([("C", some 0), ("K", some 5), ("A", some 4), ("B", some 0)],
        some 5) ∧
    Gedge.mk (Key.grp {"B"}) (Key.grp {"A"}) 1 false ∈
      rigidChainGraph.gedges ∧
    ¬ ((4 : ℚ) - 0 = 1) := by
  refine ⟨by decide, by decide, by decide⟩

/-- C8 counterexample: orderGraphA and orderGraphB hold the same constraint
multiset (same name, same equivalence domain, same equivalence map, equal
multisets of forward edges), differing only in the insertion order of X's
two rigid edges; yet X resolves to 0 in one and 5 in the other, so the
resolved distances are not insertion-order independent. -/
theorem claim_C8_counterexample :
    orderGraphA.name = orderGraphB.name ∧
    orderGraphA.domain = orderGraphB.domain ∧
    orderGraphA.cnodes = orderGraphB.cnodes ∧
    (orderGraphA.gedges : Multiset Gedge) = (orderGraphB.gedges : Multiset Gedge) ∧
    orderGraphA.analyse 100 ≠ orderGraphB.analyse 100 := by
  refine ⟨rfl, rfl, rfl, by decide, by decide⟩

/-- C4 counterexample: on unattachedGraph the group of point c never became
a graph node, and analyse raises the unattached-component KeyError; but the
error names only the graph (axis) and dumps the graph's node dictionary, in
which the unresolved group of c does not occur, so the error does not name
the unresolved group. -/
theorem claim_C4_counterexample :
    unattachedGraph.analyse 100 =
      .error (.KeyError "horizontal"
        [Key.grp {"a"}, Key.grp {"b"}, Key.str "start", Key.str "end"]) ∧
    Key.grp {"c"} ∉
      [Key.grp ({"a"} : Finset String), Key.grp {"b"}, Key.str "start",
        Key.str "end"] := by
  refine ⟨by decide, by decide⟩

/-- C5 counterexample: on overConstrainedGraph the stretch-distribution
phase finds Y with extent 4 exceeding separation 1 and raises the
insufficient-span ValueError; but the message is the fixed string
Inconsistent graph, component will not fit, which contains no digit at all,
hence reports neither the two bounding distances (9 and 10) nor the
shortfall (3). -/
theorem claim_C5_counterexample :
    overConstrainedGraph.analyse 100 =
      .error (.ValueError "Inconsistent graph, component will not fit") ∧
    ("Inconsistent graph, component will not fit".data.all
      (fun c => !c.isDigit)) = true := by
  refine ⟨by decide, by decide⟩

/-- C6 counterexample: on rigidBackwardGraph, node X's backward search
crosses no stretchable edge (rigid size 1 from K1 at 0) and its forward
search crosses one stretchable edge (size 1 to K2 at 5).  The claim requires
distance(X) = forward known distance minus forward minimum = 5 - 1 = 4; the
code instead assigns the backward formula, distance(X) = 0 + 1 = 1. -/
theorem claim_C6_counterexample :
    rigidBackwardGraph.analyse 100 =
      .ok ([("K1", some 0), ("M", some 2), ("K2", some 5), ("X", some 1)],
        some 5) ∧
    ¬ ((1 : ℚ) = 5 - 1) := by
  refine ⟨by decide, by decide⟩

/-- C3 counterexample: on the cyclic graph, longest_path_to_known hits the
recursion safety limit and the raw RecursionError escapes (there is no
except clause converting it), rather than the cyclic-graph RuntimeError
naming the axis which the claim asserts for both path operations. -/
theorem claim_C3_counterexample :
    exceptErr (cyclicGraph.longest_path_to_known 10 (Key.str "A") true) =
      some .RecursionError ∧
    (PyErr.RecursionError ≠ .RuntimeError "horizontal") := by
  refine ⟨by decide, by decide⟩

/-- C10: a graph to which no edge was ever added (its node dictionary is
empty, whatever the equivalence table holds) analyses to distance 0 for
every known connection point and total extent 0, for any fuel, instead of
raising the unattached-component error. -/
theorem claim_C10_no_edges_all_zero (name : String) (domain : List String)
    (cn : String → Finset String) (fuel : Nat) :
    (Graph.mk name domain cn []).analyse fuel =
      .ok (domain.map (fun n => (n, some 0)), some 0) := rfl

/-! Claim C7: normalisation of Graph.add and non-negativity of stored edge
sizes. -/

/-- Every edge size stored anywhere in the graph (forward or reversed lists)
is non-negative. -/
def Graph.edgesNonneg (g : Graph) : Prop :=
  ∀ p ∈ g.nodes,
    (∀ e ∈ p.2.fedges, 0 ≤ e.size) ∧ (∀ e ∈ p.2.redges, 0 ≤ e.size)

/-- The graphs producible by the engine: a fresh graph followed by any
sequence of link, add and add_start_nodes calls. -/
inductive BuiltGraph : Graph → Prop where
  | init : ∀ name nodes, BuiltGraph (Graph.init name nodes)
  | link : ∀ g n1 n2, BuiltGraph g → BuiltGraph (g.link n1 n2)
  | add : ∀ g n1 n2 size st, BuiltGraph g → BuiltGraph (g.add n1 n2 size st)
  | start : ∀ g, BuiltGraph g → BuiltGraph g.add_start_nodes

theorem aupd_pres (P : Gnode → Prop) {l : List (Key × Gnode)} {k : Key}
    {f : Gnode → Gnode} (hl : ∀ p ∈ l, P p.2)
    (hf : ∀ nd, P nd → P (f nd)) :
    ∀ p ∈ aupd l k f, P p.2 := by
  induction l with
  | nil => simp [aupd]
  | cons q t ih =>
    intro p hp
    simp only [aupd] at hp
    by_cases h : q.1 = k
    · rw [if_pos h] at hp
      rcases List.mem_cons.mp hp with hp | hp
      · rw [hp]; exact hf _ (hl q (by simp))
      · exact hl p (List.mem_cons_of_mem _ hp)
    · rw [if_neg h] at hp
      rcases List.mem_cons.mp hp with hp | hp
      · rw [hp]; exact hl q (by simp)
      · exact ih (fun r hr => hl r (List.mem_cons_of_mem _ hr)) p hp

theorem add_edges_nonneg {g : Graph} {k1 k2 : Key} {size : ℚ} {st : Bool}
    (hg : g.edgesNonneg) (hs : 0 ≤ size) :
    (g.add_edges k1 k2 size st).edgesNonneg := by
  have h1 : ∀ p ∈ aupd g.nodes k1 (fun nd =>
      { nd with fedges := nd.fedges ++ [Gedge.mk k1 k2 size st] }),
      (∀ e ∈ p.2.fedges, 0 ≤ e.size) ∧ (∀ e ∈ p.2.redges, 0 ≤ e.size) := by
    refine aupd_pres
      (fun nd => (∀ e ∈ nd.fedges, 0 ≤ e.size) ∧ (∀ e ∈ nd.redges, 0 ≤ e.size))
      (fun p hp => hg p hp) ?_
    intro nd hnd
    refine ⟨?_, hnd.2⟩
    intro e he
    rcases List.mem_append.mp he with he | he
    · exact hnd.1 e he
    · simp only [List.mem_singleton] at he; rw [he]; exact hs
  intro p hp
  refine aupd_pres
    (fun nd => (∀ e ∈ nd.fedges, 0 ≤ e.size) ∧ (∀ e ∈ nd.redges, 0 ≤ e.size))
    h1 ?_ p hp
  intro nd hnd
  refine ⟨hnd.1, ?_⟩
  intro e he
  rcases List.mem_append.mp he with he | he
  · exact hnd.2 e he
  · simp only [List.mem_singleton] at he; rw [he]; exact hs

theorem add_node_nonneg {g : Graph} {k : Key} (hg : g.edgesNonneg) :
    (g.add_node k).edgesNonneg := by
  intro p hp
  simp only [Graph.add_node] at hp
  by_cases h : (alook g.nodes k).isSome
  · rw [if_pos h] at hp; exact hg p hp
  · rw [if_neg h] at hp
    simp only [List.mem_append] at hp
    rcases hp with hp | hp
    · exact hg p hp
    · simp only [List.mem_singleton] at hp; rw [hp]; simp [Gnode.init]

theorem graphAdd_nonneg {g : Graph} {n1 n2 : String} {size : ℚ} {st : Bool}
    (hg : g.edgesNonneg) : (g.add n1 n2 size st).edgesNonneg := by
  by_cases h0 : size = 0
  · simpa [Graph.add, h0] using hg
  · by_cases hneg : size < 0
    · simp only [Graph.add, if_neg h0, if_pos hneg]
      exact add_edges_nonneg (add_node_nonneg (add_node_nonneg hg))
        (by linarith)
    · simp only [Graph.add, if_neg h0, if_neg hneg]
      exact add_edges_nonneg (add_node_nonneg (add_node_nonneg hg))
        (by push_neg at hneg; exact hneg)

theorem augStep_nonneg {g : Graph} (hg : g.edgesNonneg) (k : Key) :
    (augStep g k).edgesNonneg := by
  have h1 : ∀ g0 : Graph, g0.edgesNonneg →
      (if (g0.getN k).fedges = []
        then g0.add_edges k (Key.str "end") 0 false else g0).edgesNonneg := by
    intro g0 h0
    split
    · exact add_edges_nonneg h0 le_rfl
    · exact h0
  simp only [augStep]
  apply h1
  split
  · exact add_edges_nonneg hg le_rfl
  · exact hg

theorem add_start_nodes_nonneg {g : Graph} (hg : g.edgesNonneg) :
    g.add_start_nodes.edgesNonneg := by
  rw [Graph.add_start_nodes]
  by_cases h : (alook g.nodes (Key.str "start")).isSome
  · rw [if_pos h]; exact hg
  · rw [if_neg h]
    have base : ((g.add_node (Key.str "start")).add_node
        (Key.str "end")).edgesNonneg :=
      add_node_nonneg (add_node_nonneg hg)
    generalize (g.nodes.map Prod.fst) = ks
    generalize hgb : (g.add_node (Key.str "start")).add_node
      (Key.str "end") = gb
    rw [hgb] at base
    clear hgb hg h
    induction ks generalizing gb with
    | nil => exact base
    | cons k t ih =>
      simp only [List.foldl_cons]
      exact ih _ (augStep_nonneg base k)

theorem builtGraph_edgesNonneg {g : Graph} (h : BuiltGraph g) :
    g.edgesNonneg := by
  induction h with
  | init name nodes => intro p hp; simp [Graph.init] at hp
  | link g n1 n2 _ ih => exact fun p hp => ih p hp
  | add g n1 n2 size st _ ih => exact graphAdd_nonneg ih
  | start g _ ih => exact add_start_nodes_nonneg ih

/-- C7: Graph.add with zero length is a no-op; with negative length it
inserts the edge with the endpoints swapped and the length negated; and
consequently every graph the engine can build stores only non-negative edge
lengths (the augmentation edges have length 0). -/
theorem claim_C7_add_normalisation :
    (∀ (g : Graph) (n1 n2 : String) (st : Bool), g.add n1 n2 0 st = g) ∧
    (∀ (g : Graph) (n1 n2 : String) (size : ℚ) (st : Bool), size < 0 →
      g.add n1 n2 size st = g.add n2 n1 (-size) st) ∧
    (∀ g : Graph, BuiltGraph g → g.edgesNonneg) := by
  refine ⟨?_, ?_, ?_⟩
  · intro g n1 n2 st; simp [Graph.add]
  · intro g n1 n2 size st h
    have h0 : ¬ size = 0 := ne_of_lt h
    have h0n : ¬ (-size) = 0 := by simp; linarith
    have hn : ¬ (-size < 0) := by linarith
    simp only [Graph.add, if_neg h0, if_pos h, if_neg h0n, if_neg hn]
  · exact fun g h => builtGraph_edgesNonneg h

/-- Witness for C7 at concrete inputs: a zero-length add is dropped, a
negative add equals the swapped positive add, and a small built graph has
only non-negative edges. -/
theorem claim_C7_witness :
    ((Graph.init "h" []).add "a" "b" 0 true = Graph.init "h" []) ∧
    ((Graph.init "h" []).add "a" "b" (-2) true =
      (Graph.init "h" []).add "b" "a" (-(-2)) true) ∧
    ((Graph.init "h" []).add "a" "b" 1 false).edgesNonneg := by
  refine ⟨claim_C7_add_normalisation.1 _ _ _ _,
    claim_C7_add_normalisation.2.1 _ _ _ _ _ (by norm_num),
    claim_C7_add_normalisation.2.2 _
      (BuiltGraph.add _ _ _ _ _ (BuiltGraph.init "h" []))⟩

/-! Claim C9: algebra of Cnodes.link. -/

/-- Well-formedness of an equivalence map, as maintained by Cnodes: every
point lies in its own group, and every member of a group carries that same
group (all members share the one tuple). -/
def CnWF (g : String → Finset String) : Prop :=
  (∀ a, a ∈ g a) ∧ (∀ a b, a ∈ g b → g a = g b)

/-- Reassign every member of s to the whole of s (the shape of one link
call: s is the union of the two old tuples). -/
def mergeSet (s : Finset String) (g : String → Finset String) :
    String → Finset String :=
  fun n => if n ∈ s then s else g n

theorem link_eq_mergeSet (g : String → Finset String) (a b : String) :
    Cnodes.link g a b = mergeSet (g a ∪ g b) g := by
  funext n
  simp [Cnodes.link, mergeSet, Finset.mem_union]

theorem mergeSet_absorb {s t : Finset String}
    (g : String → Finset String) (h : s ⊆ t) :
    mergeSet t (mergeSet s g) = mergeSet t g := by
  funext n
  by_cases hn : n ∈ t
  · simp [mergeSet, hn]
  · have hns : n ∉ s := fun hns => hn (h hns)
    simp [mergeSet, hn, hns]

theorem mergeSet_comm {s t : Finset String}
    (g : String → Finset String) (h : Disjoint s t) :
    mergeSet t (mergeSet s g) = mergeSet s (mergeSet t g) := by
  funext n
  by_cases hns : n ∈ s
  · have hnt : n ∉ t := Finset.disjoint_left.mp h hns
    simp [mergeSet, hns, hnt]
  · by_cases hnt : n ∈ t
    · simp [mergeSet, hns, hnt]
    · simp [mergeSet, hns, hnt]

theorem cnwf_mem_eq {g : String → Finset String} (hw : CnWF g) {x y : String}
    (h : x ∈ g y) : g x = g y := hw.2 x y h

theorem cnwf_link {g : String → Finset String} (hw : CnWF g) (a b : String) :
    CnWF (Cnodes.link g a b) := by
  rw [link_eq_mergeSet]
  constructor
  · intro n
    by_cases hn : n ∈ g a ∪ g b
    · simp [mergeSet, hn]
    · simp [mergeSet, hn, hw.1 n]
  · intro x y hxy
    by_cases hy : y ∈ g a ∪ g b
    · simp only [mergeSet, if_pos hy] at hxy
      simp [mergeSet, hy, hxy]
    · simp only [mergeSet, if_neg hy] at hxy
      have hx : x ∉ g a ∪ g b := by
        intro hx
        rcases Finset.mem_union.mp hx with hx | hx
        · refine hy (Finset.mem_union_left _ ?_)
          have h1 : g x = g a := cnwf_mem_eq hw hx
          have h2 : g x = g y := cnwf_mem_eq hw hxy
          rw [← h1, h2]; exact hw.1 y
        · refine hy (Finset.mem_union_right _ ?_)
          have h1 : g x = g b := cnwf_mem_eq hw hx
          have h2 : g x = g y := cnwf_mem_eq hw hxy
          rw [← h1, h2]; exact hw.1 y
      simp [mergeSet, hy, hx, cnwf_mem_eq hw hxy]

theorem link_self {g : String → Finset String} (hw : CnWF g) (a : String) :
    Cnodes.link g a a = g := by
  rw [link_eq_mergeSet]
  funext n
  by_cases hn : n ∈ g a ∪ g a
  · have hn1 : n ∈ g a := by simpa using hn
    simp [mergeSet, hn, cnwf_mem_eq hw hn1]
  · have hn1 : n ∉ g a := by simpa using hn
    simp [mergeSet, hn1]

theorem cnwf_mem_symm {g : String → Finset String} (hw : CnWF g)
    {x y : String} (h : x ∈ g y) : y ∈ g x := by
  rw [cnwf_mem_eq hw h]; exact hw.1 y

theorem cnwf_block_sub {g : String → Finset String} (hw : CnWF g)
    {x u v : String} (h : x ∈ g u ∪ g v) : g x ⊆ g u ∪ g v := by
  rcases Finset.mem_union.mp h with h | h
  · rw [cnwf_mem_eq hw h]; exact Finset.subset_union_left
  · rw [cnwf_mem_eq hw h]; exact Finset.subset_union_right

theorem link_swap (g : String → Finset String) (a b : String) :
    Cnodes.link g a b = Cnodes.link g b a := by
  rw [link_eq_mergeSet, link_eq_mergeSet, Finset.union_comm]

theorem link_comm_aux {g : String → Finset String} (hw : CnWF g)
    (a b c d : String) (pc : c ∈ g a ∪ g b) (pd : d ∉ g a ∪ g b) :
    Cnodes.link (Cnodes.link g a b) c d =
      Cnodes.link (Cnodes.link g c d) a b := by
  rw [link_eq_mergeSet g a b, link_eq_mergeSet g c d,
    link_eq_mergeSet (mergeSet (g a ∪ g b) g) c d,
    link_eq_mergeSet (mergeSet (g c ∪ g d) g) a b]
  have hMc : mergeSet (g a ∪ g b) g c = g a ∪ g b := if_pos pc
  have hMd : mergeSet (g a ∪ g b) g d = g d := if_neg pd
  rw [hMc, hMd]
  have hCsub : g c ∪ g d ⊆ (g a ∪ g b) ∪ g d :=
    Finset.union_subset
      ((cnwf_block_sub hw pc).trans Finset.subset_union_left)
      Finset.subset_union_right
  have hA' : mergeSet (g c ∪ g d) g a ∪ mergeSet (g c ∪ g d) g b =
      (g a ∪ g b) ∪ g d := by
    simp only [mergeSet]
    apply Finset.Subset.antisymm
    · apply Finset.union_subset
      · by_cases qa : a ∈ g c ∪ g d
        · rw [if_pos qa]; exact hCsub
        · rw [if_neg qa]
          exact Finset.subset_union_left.trans Finset.subset_union_left
      · by_cases qb : b ∈ g c ∪ g d
        · rw [if_pos qb]; exact hCsub
        · rw [if_neg qb]
          exact Finset.subset_union_right.trans Finset.subset_union_left
    · apply Finset.union_subset
      · apply Finset.union_subset
        · by_cases qa : a ∈ g c ∪ g d
          · rw [if_pos qa]
            rcases Finset.mem_union.mp qa with ha | ha
            · refine (le_of_eq (cnwf_mem_eq hw ha)).trans
                Finset.subset_union_left |>.trans Finset.subset_union_left
            · exact absurd (Finset.mem_union_left _ (cnwf_mem_symm hw ha)) pd
          · rw [if_neg qa]; exact Finset.subset_union_left
        · by_cases qb : b ∈ g c ∪ g d
          · rw [if_pos qb]
            rcases Finset.mem_union.mp qb with hb | hb
            · refine (le_of_eq (cnwf_mem_eq hw hb)).trans
                Finset.subset_union_left |>.trans Finset.subset_union_right
            · exact absurd (Finset.mem_union_right _ (cnwf_mem_symm hw hb)) pd
          · rw [if_neg qb]; exact Finset.subset_union_right
      · rcases Finset.mem_union.mp pc with hc | hc
        · have qa : a ∈ g c ∪ g d :=
            Finset.mem_union_left _ (cnwf_mem_symm hw hc)
          rw [if_pos qa]
          exact Finset.subset_union_right.trans Finset.subset_union_left
        · have qb : b ∈ g c ∪ g d :=
            Finset.mem_union_left _ (cnwf_mem_symm hw hc)
          rw [if_pos qb]
          exact Finset.subset_union_right.trans Finset.subset_union_right
  rw [hA']
  rw [mergeSet_absorb g Finset.subset_union_left,
    mergeSet_absorb g hCsub]

theorem link_comm {g : String → Finset String} (hw : CnWF g)
    (a b c d : String) :
    Cnodes.link (Cnodes.link g a b) c d =
      Cnodes.link (Cnodes.link g c d) a b := by
  by_cases pc : c ∈ g a ∪ g b
  · by_cases pd : d ∈ g a ∪ g b
    · -- both c and d already lie inside the merged a-b region
      rw [link_eq_mergeSet g a b, link_eq_mergeSet g c d,
        link_eq_mergeSet (mergeSet (g a ∪ g b) g) c d,
        link_eq_mergeSet (mergeSet (g c ∪ g d) g) a b]
      have hMc : mergeSet (g a ∪ g b) g c = g a ∪ g b := if_pos pc
      have hMd : mergeSet (g a ∪ g b) g d = g a ∪ g b := if_pos pd
      rw [hMc, hMd, Finset.union_self]
      have hCsub : g c ∪ g d ⊆ g a ∪ g b :=
        Finset.union_subset (cnwf_block_sub hw pc) (cnwf_block_sub hw pd)
      have hA' : mergeSet (g c ∪ g d) g a ∪ mergeSet (g c ∪ g d) g b =
          g a ∪ g b := by
        simp only [mergeSet]
        apply Finset.Subset.antisymm
        · apply Finset.union_subset
          · by_cases qa : a ∈ g c ∪ g d
            · rw [if_pos qa]; exact hCsub
            · rw [if_neg qa]; exact Finset.subset_union_left
          · by_cases qb : b ∈ g c ∪ g d
            · rw [if_pos qb]; exact hCsub
            · rw [if_neg qb]; exact Finset.subset_union_right
        · apply Finset.union_subset
          · by_cases qa : a ∈ g c ∪ g d
            · rw [if_pos qa]
              intro x hx
              apply Finset.mem_union_left
              rcases Finset.mem_union.mp qa with ha | ha
              · rw [← cnwf_mem_eq hw ha]
                exact Finset.mem_union_left _ hx
              · rw [← cnwf_mem_eq hw ha]
                exact Finset.mem_union_right _ hx
            · rw [if_neg qa]; exact Finset.subset_union_left
          · by_cases qb : b ∈ g c ∪ g d
            · rw [if_pos qb]
              intro x hx
              apply Finset.mem_union_right
              rcases Finset.mem_union.mp qb with hb | hb
              · rw [← cnwf_mem_eq hw hb]
                exact Finset.mem_union_left _ hx
              · rw [← cnwf_mem_eq hw hb]
                exact Finset.mem_union_right _ hx
            · rw [if_neg qb]; exact Finset.subset_union_right
      rw [hA']
      rw [mergeSet_absorb g (le_refl (g a ∪ g b)),
        mergeSet_absorb g hCsub]
    · exact link_comm_aux hw a b c d pc pd
  · by_cases pd : d ∈ g a ∪ g b
    · rw [link_swap g c d, link_swap (Cnodes.link g a b) c d]
      exact link_comm_aux hw a b d c pd pc
    · -- the a-b region and the c-d region are disjoint
      rw [link_eq_mergeSet g a b, link_eq_mergeSet g c d,
        link_eq_mergeSet (mergeSet (g a ∪ g b) g) c d,
        link_eq_mergeSet (mergeSet (g c ∪ g d) g) a b]
      have hMc : mergeSet (g a ∪ g b) g c = g c := if_neg pc
      have hMd : mergeSet (g a ∪ g b) g d = g d := if_neg pd
      have hdis : Disjoint (g a ∪ g b) (g c ∪ g d) := by
        rw [Finset.disjoint_left]
        intro x hx hx'
        rcases Finset.mem_union.mp hx' with h | h
        · exact pc (cnwf_block_sub hw hx (cnwf_mem_symm hw h))
        · exact pd (cnwf_block_sub hw hx (cnwf_mem_symm hw h))
      have hMa : mergeSet (g c ∪ g d) g a = g a :=
        if_neg (Finset.disjoint_left.mp hdis (Finset.mem_union_left _ (hw.1 a)))
      have hMb : mergeSet (g c ∪ g d) g b = g b :=
        if_neg (Finset.disjoint_left.mp hdis (Finset.mem_union_right _ (hw.1 b)))
      rw [hMc, hMd, hMa, hMb]
      exact mergeSet_comm g hdis

/-- A sequence of link calls, in order. -/
def applyLinks (g : String → Finset String) :
    List (String × String) → (String → Finset String)
  | [] => g
  | p :: ps => applyLinks (Cnodes.link g p.1 p.2) ps

theorem applyLinks_perm {ps1 ps2 : List (String × String)}
    (hp : ps1.Perm ps2) :
    ∀ g : String → Finset String, CnWF g →
      applyLinks g ps1 = applyLinks g ps2 := by
  induction hp with
  | nil => intro g _; rfl
  | cons p _ ih =>
    intro g hw
    exact ih (Cnodes.link g p.1 p.2) (cnwf_link hw p.1 p.2)
  | swap p q l =>
    intro g hw
    show applyLinks (Cnodes.link (Cnodes.link g q.1 q.2) p.1 p.2) l =
      applyLinks (Cnodes.link (Cnodes.link g p.1 p.2) q.1 q.2) l
    rw [link_comm hw]
  | trans h1 _ ih1 ih2 =>
    intro g hw
    exact (ih1 g hw).trans (ih2 g hw)

theorem cnwf_init : CnWF (fun n => ({n} : Finset String)) := by
  constructor
  · intro a; exact Finset.mem_singleton_self a
  · intro a b h
    simp only [Finset.mem_singleton] at h
    subst h; rfl

/-- C9: equivalence-group merging is transitive (merging a with b when c is
already in either group yields one group holding a, b and c, shared by all
three), merging a point with itself is a no-op, and the resulting map after
any sequence of merges is invariant under permutation of that sequence, all
under the well-formedness invariant that Cnodes maintains. -/
theorem claim_C9_link_algebra :
    (∀ (g : String → Finset String) (a b c : String), CnWF g →
      (c ∈ g a ∨ c ∈ g b) →
      a ∈ Cnodes.link g a b a ∧ b ∈ Cnodes.link g a b a ∧
      c ∈ Cnodes.link g a b a ∧
      Cnodes.link g a b b = Cnodes.link g a b a ∧
      Cnodes.link g a b c = Cnodes.link g a b a) ∧
    (∀ (g : String → Finset String) (a : String), CnWF g →
      Cnodes.link g a a = g) ∧
    (∀ (g : String → Finset String) (ps1 ps2 : List (String × String)),
      CnWF g → ps1.Perm ps2 → applyLinks g ps1 = applyLinks g ps2) := by
  refine ⟨?_, ?_, ?_⟩
  · intro g a b c hw hc
    have ha : a ∈ g a ∪ g b := Finset.mem_union_left _ (hw.1 a)
    have hb : b ∈ g a ∪ g b := Finset.mem_union_right _ (hw.1 b)
    have hcA : c ∈ g a ∪ g b := Finset.mem_union.mpr hc
    rw [link_eq_mergeSet]
    refine ⟨?_, ?_, ?_, ?_, ?_⟩ <;> simp [mergeSet, ha, hb, hcA]
  · exact fun g a hw => link_self hw a
  · exact fun g ps1 ps2 hw hp => applyLinks_perm hp g hw

/-- Witness for C9 at concrete inputs: after merging a with c, merging a
with b pulls c along; a self merge on the fresh table is the identity; and
two merge sequences that are permutations of one another give the same
table. -/
theorem claim_C9_witness :
    ("a" ∈ Cnodes.link (Cnodes.link (fun n => ({n} : Finset String)) "a" "c")
        "a" "b" "a" ∧
      "b" ∈ Cnodes.link (Cnodes.link (fun n => ({n} : Finset String)) "a" "c")
        "a" "b" "a" ∧
      "c" ∈ Cnodes.link (Cnodes.link (fun n => ({n} : Finset String)) "a" "c")
        "a" "b" "a" ∧
      Cnodes.link (Cnodes.link (fun n => ({n} : Finset String)) "a" "c")
          "a" "b" "b" =
        Cnodes.link (Cnodes.link (fun n => ({n} : Finset String)) "a" "c")
          "a" "b" "a" ∧
      Cnodes.link (Cnodes.link (fun n => ({n} : Finset String)) "a" "c")
          "a" "b" "c" =
        Cnodes.link (Cnodes.link (fun n => ({n} : Finset String)) "a" "c")
          "a" "b" "a") ∧
    Cnodes.link (fun n => ({n} : Finset String)) "a" "a" =
      (fun n => ({n} : Finset String)) ∧
    applyLinks (fun n => ({n} : Finset String)) [("a", "b"), ("b", "c")] =
      applyLinks (fun n => ({n} : Finset String)) [("b", "c"), ("a", "b")] := by
  refine ⟨?_, ?_, ?_⟩
  · exact claim_C9_link_algebra.1 _ "a" "b" "c"
      (cnwf_link cnwf_init "a" "c") (Or.inl (by decide))
  · exact claim_C9_link_algebra.2.1 _ "a" cnwf_init
  · exact claim_C9_link_algebra.2.2 _ _ _ cnwf_init (by decide)

/-! Claim C3: cycle behaviour of the two path operations, for every
recursion limit. -/

/-- The forward edge of the cycle (also stored as the reversed edge list
entry of node A, by the field layout of add_edges). -/
def eAB : Gedge := Gedge.mk (Key.str "A") (Key.str "B") 1 false

/-- The backward edge of the cycle. -/
def eBA : Gedge := Gedge.mk (Key.str "B") (Key.str "A") 1 false

/-- The family of states the relaxation walks through on cyclicGraph: the
two node distances and the four pointer fields vary, everything else is
fixed by the construction of the graph. -/
def cycState (da db : ℚ) (pA pB nA nB : Option Gedge) : Graph :=
  { name := "horizontal", domain := [], cnodes := fun n => {n},
    nodes := [
      (Key.str "A", Gnode.mk (Key.str "A") pA nA da none [eAB] [eAB]),
      (Key.str "B", Gnode.mk (Key.str "B") pB nB db none [eBA] [eBA])] }

theorem cyc_traverse_error : ∀ fuel : Nat,
    (∀ (da db : ℚ) (pA pB nA nB : Option Gedge), db < da + 1 →
      traverseF fuel (cycState da db pA pB nA nB) (Key.str "A") =
        .error .RecursionError) ∧
    (∀ (da db : ℚ) (pA pB nA nB : Option Gedge), da < db + 1 →
      traverseF fuel (cycState da db pA pB nA nB) (Key.str "B") =
        .error .RecursionError) := by
  intro fuel
  induction fuel with
  | zero => exact ⟨fun _ _ _ _ _ _ _ => rfl, fun _ _ _ _ _ _ _ => rfl⟩
  | succ fuel ih =>
    constructor
    · intro da db pA pB nA nB h
      show (if da + 1 > db then
          traverseF fuel (cycState da (da + 1) pA (some eAB) (some eAB) nB)
            (Key.str "B")
        else .ok (cycState da db pA pB nA nB)) = .error .RecursionError
      rw [if_pos (by linarith)]
      exact ih.2 da (da + 1) pA (some eAB) (some eAB) nB (by linarith)
    · intro da db pA pB nA nB h
      show (if db + 1 > da then
          traverseF fuel (cycState (db + 1) db (some eBA) pB nA (some eBA))
            (Key.str "A")
        else .ok (cycState da db pA pB nA nB)) = .error .RecursionError
      rw [if_pos (by linarith)]
      exact ih.1 (db + 1) db (some eBA) pB nA (some eBA) (by linarith)

theorem cyc_traverseK_error : ∀ fuel : Nat,
    (∀ (da db : ℚ) (pA pB nA nB : Option Gedge), db < da + 1 →
      traverseK fuel (cycState da db pA pB nA nB) (Key.str "A") true =
        .error .RecursionError) ∧
    (∀ (da db : ℚ) (pA pB nA nB : Option Gedge), da < db + 1 →
      traverseK fuel (cycState da db pA pB nA nB) (Key.str "B") true =
        .error .RecursionError) := by
  intro fuel
  induction fuel with
  | zero => exact ⟨fun _ _ _ _ _ _ _ => rfl, fun _ _ _ _ _ _ _ => rfl⟩
  | succ fuel ih =>
    constructor
    · intro da db pA pB nA nB h
      show (if da + 1 > db then
          traverseK fuel (cycState da (da + 1) pA (some eAB) (some eAB) nB)
            (Key.str "B") true
        else .ok (cycState da db pA pB nA nB)) = .error .RecursionError
      rw [if_pos (by linarith)]
      exact ih.2 da (da + 1) pA (some eAB) (some eAB) nB (by linarith)
    · intro da db pA pB nA nB h
      show (if db + 1 > da then
          traverseK fuel (cycState (db + 1) db (some eBA) pB nA (some eBA))
            (Key.str "A") true
        else .ok (cycState da db pA pB nA nB)) = .error .RecursionError
      rw [if_pos (by linarith)]
      exact ih.1 (db + 1) db (some eBA) pB nA (some eBA) (by linarith)

/-- C3 (amended): on the cyclic graph, for every recursion limit,
longest_forward_path detects the unbounded revisiting via the limit and
raises the structural RuntimeError naming the axis; longest_path_to_known
has no handler and lets the raw RecursionError escape, without the axis
name. -/
theorem claim_C3_cycle_detection (fuel : Nat) :
    cyclicGraph.longest_forward_path fuel (Key.str "A") =
      .error (.RuntimeError "horizontal") ∧
    cyclicGraph.longest_path_to_known fuel (Key.str "A") true =
      .error .RecursionError := by
  have hst : (cyclicGraph.reset).setDist (Key.str "A") 0 =
      cycState 0 (-1) none none none none := rfl
  constructor
  · show (match traverseF fuel ((cyclicGraph.reset).setDist (Key.str "A") 0)
        (Key.str "A") with
      | .error _ => Except.error (PyErr.RuntimeError cyclicGraph.name)
      | .ok g2 => .ok g2) = .error (.RuntimeError "horizontal")
    rw [hst, (cyc_traverse_error fuel).1 0 (-1) none none none none
      (by norm_num)]
    rfl
  · show traverseK fuel ((cyclicGraph.reset).setDist (Key.str "A") 0)
        (Key.str "A") true = .error .RecursionError
    rw [hst]
    exact (cyc_traverseK_error fuel).1 0 (-1) none none none none
      (by norm_num)

/-- A handcrafted resolver state for exercising one stretch-distribution
step: X unresolved between K1 (resolved at 5) and K2 (resolved at 0) on
stretchable edges of minimum sizes 3 and 4, so the required extent 7 cannot
fit in the separation 0 - 5. -/
def spanWitnessGraph : Graph :=
  let g := Graph.init "h" []
  let g := g.add "K1" "X" 3 true
  let g := g.add "X" "K2" 4 true
  (g.setKnown (Key.str "K1") 5).setKnown (Key.str "K2") 0

/-- A handcrafted resolver state with slack: X unresolved between K1
(resolved at 0) and K2 (resolved at 5) on stretchable edges of minimum size
1 each, leaving slack 3 over two stretchable edges. -/
def slackWitnessGraph : Graph :=
  let g := Graph.init "h" []
  let g := g.add "K1" "X" 1 true
  let g := g.add "X" "K2" 1 true
  (g.setKnown (Key.str "K1") 0).setKnown (Key.str "K2") 5

/-- C5 (amended): whenever the two searches of a stretch-distribution step
end at real nodes (neither synthetic marker), both with resolved distances,
and the minimum extent exceeds the separation, the step raises ValueError
with the fixed message; the report carries no further data. -/
theorem claim_C5_insufficient_span_raises (fuel : Nat) (g : Graph) (k : Key)
    {g1 g2 : Graph} {toKey fromKey : Key} {fstretches rstretches : Nat}
    {fdist rdist td fd : ℚ}
    (h1 : g.longest_path_to_known fuel k true = .ok g1)
    (h2 : walkNext g1.nodes.length g1 k = (fstretches, fdist, toKey))
    (h3 : g1.longest_path_to_known fuel k false = .ok g2)
    (h4 : walkNext g1.nodes.length g2 k = (rstretches, rdist, fromKey))
    (h5 : fromKey ≠ Key.str "start") (h6 : toKey ≠ Key.str "end")
    (h7 : (g2.getN toKey).known_dist = some td)
    (h8 : (g2.getN fromKey).known_dist = some fd)
    (h9 : fdist + rdist > td - fd) :
    g.stretch_step fuel k =
      .error (.ValueError "Inconsistent graph, component will not fit") := by
  simp only [Graph.stretch_step, h1, h3, h2, h4, h7, h8]
  rw [if_neg h5, if_neg h6, if_pos h9]

/-- Witness for C5: the step on spanWitnessGraph raises the fixed-message
ValueError. -/
theorem claim_C5_witness :
    spanWitnessGraph.stretch_step 100 (Key.str "X") =
      .error (.ValueError "Inconsistent graph, component will not fit") :=
  claim_C5_insufficient_span_raises 100 spanWitnessGraph (Key.str "X")
    rfl rfl rfl rfl (by decide) (by decide) rfl rfl (by norm_num)

/-- C6 (amended): in a stretch-distribution step whose searches end at real
resolved nodes with extent within the separation, the group's distance is
backward_known + backward_minimum when the backward side crossed no
stretchable edge; otherwise forward_known - forward_minimum when the forward
side crossed none; otherwise backward_known + backward_minimum +
slack_per_edge * backward_stretch_count, slack_per_edge being
(separation - extent) / (total stretchable edges crossed).  (The claim as
frozen swapped the first two formulas.) -/
theorem claim_C6_stretch_formulas (fuel : Nat) (g : Graph) (k : Key)
    {g1 g2 : Graph} {toKey fromKey : Key} {fstretches rstretches : Nat}
    {fdist rdist td fd : ℚ}
    (h1 : g.longest_path_to_known fuel k true = .ok g1)
    (h2 : walkNext g1.nodes.length g1 k = (fstretches, fdist, toKey))
    (h3 : g1.longest_path_to_known fuel k false = .ok g2)
    (h4 : walkNext g1.nodes.length g2 k = (rstretches, rdist, fromKey))
    (h5 : fromKey ≠ Key.str "start") (h6 : toKey ≠ Key.str "end")
    (h7 : (g2.getN toKey).known_dist = some td)
    (h8 : (g2.getN fromKey).known_dist = some fd)
    (h9 : ¬ (fdist + rdist > td - fd)) :
    (rstretches = 0 →
      g.stretch_step fuel k = .ok (g2.setKnown k (fd + rdist))) ∧
    (rstretches ≠ 0 → fstretches = 0 →
      g.stretch_step fuel k = .ok (g2.setKnown k (td - fdist))) ∧
    (rstretches ≠ 0 → fstretches ≠ 0 →
      g.stretch_step fuel k = .ok (g2.setKnown k (fd + rdist +
        (td - fd - (fdist + rdist)) /
          ((fstretches : ℚ) + (rstretches : ℚ)) * (rstretches : ℚ)))) := by
  refine ⟨?_, ?_, ?_⟩
  · intro hr
    simp only [Graph.stretch_step, h1, h3, h2, h4, h7, h8]
    rw [if_neg h5, if_neg h6, if_neg h9, if_pos hr]
  · intro hr hf
    simp only [Graph.stretch_step, h1, h3, h2, h4, h7, h8]
    rw [if_neg h5, if_neg h6, if_neg h9, if_neg hr, if_pos hf]
  · intro hr hf
    simp only [Graph.stretch_step, h1, h3, h2, h4, h7, h8]
    rw [if_neg h5, if_neg h6, if_neg h9, if_neg hr, if_neg hf]

/-- Witness for C6: on slackWitnessGraph both sides cross one stretchable
edge each, and X resolves at 0 + 1 + 3/2 = 5/2. -/
theorem claim_C6_witness :
    (match slackWitnessGraph.stretch_step 100 (Key.str "X") with
      | .ok gr => (gr.getN (Key.str "X")).known_dist
      | .error _ => none) = some (5 / 2 : ℚ) := by
  rw [(claim_C6_stretch_formulas 100 slackWitnessGraph (Key.str "X")
    rfl rfl rfl rfl (by decide) (by decide) rfl rfl (by norm_num)).2.2
    (by decide) (by decide)]
  decide

/-! Claim C4: a successful analyse never returns a missing or null
coordinate.  The proof tracks two facts through every pass: the graph shape
(name, domain, equivalence map and node key list) never changes after
augmentation, and resolved distances are only ever created, never destroyed. -/

theorem alook_aupd (l : List (Key × Gnode)) (k j : Key) (f : Gnode → Gnode) :
    alook (aupd l k f) j =
      if k = j then (alook l k).map f else alook l j := by
  induction l with
  | nil => by_cases h : k = j <;> simp [alook, aupd, h]
  | cons q t ih =>
    by_cases hq : q.1 = k
    · by_cases hj : k = j
      · subst hj
        simp [aupd, alook, hq]
      · have hqj : ¬ q.1 = j := by rw [hq]; exact hj
        simp [aupd, alook, hq, hqj, hj]
    · by_cases hj : k = j
      · subst hj
        simp [aupd, alook, hq, ih]
      · by_cases hqj : q.1 = j
        · have hjk : ¬ j = k := by rw [← hqj]; exact hq
          simp [aupd, alook, hq, hqj, hj, hjk]
        · simp [aupd, alook, hq, hqj, hj, ih]

theorem keys_aupd (l : List (Key × Gnode)) (k : Key) (f : Gnode → Gnode) :
    (aupd l k f).map Prod.fst = l.map Prod.fst := by
  induction l with
  | nil => rfl
  | cons q t ih =>
    by_cases hq : q.1 = k
    · simp [aupd, hq]
    · simp [aupd, hq, ih]

theorem alook_isSome_iff_mem (l : List (Key × Gnode)) (j : Key) :
    (alook l j).isSome ↔ j ∈ l.map Prod.fst := by
  induction l with
  | nil => simp [alook]
  | cons q t ih =>
    by_cases hq : q.1 = j
    · simp [alook, hq]
    · simp [alook, hq, ih, Ne.symm hq]

/-- The shape of a graph: everything analyse's bookkeeping relies on apart
from the node contents. -/
def shapeEq (g g' : Graph) : Prop :=
  g'.name = g.name ∧ g'.domain = g.domain ∧ g'.cnodes = g.cnodes ∧
    g'.nodes.map Prod.fst = g.nodes.map Prod.fst

theorem shapeEq_refl (g : Graph) : shapeEq g g := ⟨rfl, rfl, rfl, rfl⟩

theorem shapeEq_trans {g1 g2 g3 : Graph} (h1 : shapeEq g1 g2)
    (h2 : shapeEq g2 g3) : shapeEq g1 g3 :=
  ⟨h2.1.trans h1.1, h2.2.1.trans h1.2.1, h2.2.2.1.trans h1.2.2.1,
    h2.2.2.2.trans h1.2.2.2⟩

/-- Resolved distances agree pointwise (the traversals never touch them). -/
def kEq (g g' : Graph) : Prop :=
  ∀ j, (g'.getN j).known_dist = (g.getN j).known_dist

/-- Resolved distances only accumulate. -/
def kMono (g g' : Graph) : Prop :=
  ∀ j, ((g.getN j).known_dist).isSome → ((g'.getN j).known_dist).isSome

theorem kEq_mono {g g' : Graph} (h : kEq g g') : kMono g g' := by
  intro j hj
  rw [h j]; exact hj

theorem kMono_trans {g1 g2 g3 : Graph} (h1 : kMono g1 g2)
    (h2 : kMono g2 g3) : kMono g1 g3 := fun j hj => h2 j (h1 j hj)

theorem getN_known_aupd {g : Graph} {k : Key} {f : Gnode → Gnode}
    (hf : ∀ nd, (f nd).known_dist = nd.known_dist) (j : Key) :
    (({ g with nodes := aupd g.nodes k f } : Graph).getN j).known_dist =
      (g.getN j).known_dist := by
  simp only [Graph.getN, alook_aupd]
  by_cases h : k = j
  · rw [if_pos h]
    cases halook : alook g.nodes j with
    | none => subst h; rw [halook]; rfl
    | some v => subst h; rw [halook]; simp [hf]
  · rw [if_neg h]

theorem alook_map (l : List (Key × Gnode)) (f : Gnode → Gnode) (j : Key) :
    alook (l.map (fun p => (p.1, f p.2))) j = (alook l j).map f := by
  induction l with
  | nil => rfl
  | cons q t ih =>
    by_cases hq : q.1 = j
    · simp [alook, hq]
    · simp [alook, hq, ih]

theorem reset_shape (g : Graph) : shapeEq g g.reset := by
  refine ⟨rfl, rfl, rfl, ?_⟩
  simp [Graph.reset]

theorem reset_kEq (g : Graph) : kEq g g.reset := by
  intro j
  simp only [Graph.reset, Graph.getN, alook_map]
  cases alook g.nodes j with
  | none => rfl
  | some v => simp [resetNode]

theorem setDist_shape (g : Graph) (k : Key) (d : ℚ) :
    shapeEq g (g.setDist k d) := ⟨rfl, rfl, rfl, keys_aupd _ _ _⟩

theorem setDist_kEq (g : Graph) (k : Key) (d : ℚ) : kEq g (g.setDist k d) := by
  intro j
  refine getN_known_aupd ?_ j
  intro nd; rfl

theorem setKnown_shape (g : Graph) (k : Key) (d : ℚ) :
    shapeEq g (g.setKnown k d) := ⟨rfl, rfl, rfl, keys_aupd _ _ _⟩

theorem setKnown_kMono (g : Graph) (k : Key) (d : ℚ) :
    kMono g (g.setKnown k d) := by
  intro j hj
  simp only [Graph.setKnown, Graph.getN, alook_aupd]
  by_cases h : k = j
  · rw [if_pos h]
    cases halook : alook g.nodes j with
    | none =>
      subst h; rw [halook]
      simp only [Graph.getN, halook] at hj
      exact absurd hj (by simp [Gnode.init])
    | some v => subst h; rw [halook]; simp
  · rw [if_neg h]; exact hj

theorem setKnown_sets {g : Graph} {k : Key} (d : ℚ)
    (h : k ∈ g.nodes.map Prod.fst) :
    (((g.setKnown k d).getN k).known_dist).isSome := by
  have hs : (alook g.nodes k).isSome := (alook_isSome_iff_mem _ _).mpr h
  simp only [Graph.setKnown, Graph.getN, alook_aupd, if_pos rfl]
  cases halook : alook g.nodes k with
  | none => rw [halook] at hs; simp at hs
  | some v => simp

/-- Preservation through an error-short-circuiting fold, for any transitive
reflexive relation preserved by each successful step. -/
theorem foldl_err (f : Except PyErr Graph → Gedge → Except PyErr Graph)
    (herr : ∀ err e, f (.error err) e = .error err) :
    ∀ (t : List Gedge) (err : PyErr), t.foldl f (.error err) = .error err := by
  intro t
  induction t with
  | nil => intro err; rfl
  | cons e t iht =>
    intro err
    simp only [List.foldl_cons, herr]
    exact iht err

theorem foldl_except_pres (R : Graph → Graph → Prop)
    (hrefl : ∀ g, R g g) (htrans : ∀ a b c, R a b → R b c → R a c)
    (f : Except PyErr Graph → Gedge → Except PyErr Graph)
    (hstep : ∀ g e g', f (.ok g) e = .ok g' → R g g')
    (herr : ∀ err e, f (.error err) e = .error err) :
    ∀ (es : List Gedge) (g g' : Graph),
      es.foldl f (.ok g) = .ok g' → R g g' := by
  intro es
  induction es with
  | nil =>
    intro g g' h
    simp only [List.foldl_nil] at h
    cases h
    exact hrefl g
  | cons e t iht =>
    intro g g' h
    simp only [List.foldl_cons] at h
    cases hfe : f (.ok g) e with
    | error err =>
      rw [hfe, foldl_err f herr] at h
      cases h
    | ok g1 =>
      rw [hfe] at h
      exact htrans _ _ _ (hstep g e g1 hfe) (iht g1 g' h)

/-- The relation tracked through the path computations. -/
def presRel (g g' : Graph) : Prop := shapeEq g g' ∧ kEq g g'

theorem presRel_refl (g : Graph) : presRel g g :=
  ⟨shapeEq_refl g, fun _ => rfl⟩

theorem presRel_trans {a b c : Graph} (h1 : presRel a b) (h2 : presRel b c) :
    presRel a c :=
  ⟨shapeEq_trans h1.1 h2.1, fun j => (h2.2 j).trans (h1.2 j)⟩

theorem aupd_presRel (g : Graph) (k : Key) (f : Gnode → Gnode)
    (hf : ∀ nd, (f nd).known_dist = nd.known_dist) :
    presRel g { g with nodes := aupd g.nodes k f } :=
  ⟨⟨rfl, rfl, rfl, keys_aupd _ _ _⟩, fun j => getN_known_aupd hf j⟩

theorem traverse_pres : ∀ (fuel : Nat) (g : Graph) (k : Key) (g' : Graph),
    traverseF fuel g k = .ok g' → presRel g g' := by
  intro fuel
  induction fuel with
  | zero =>
    intro g k g' h
    exact absurd h (by simp [traverseF])
  | succ fuel ih =>
    intro g k g' h
    rw [traverseF] at h
    refine foldl_except_pres presRel presRel_refl
      (fun a b c => presRel_trans) _ ?_ (fun err e => rfl) _ _ _ h
    intro g0 e g'' hf
    dsimp only at hf
    by_cases hrel : (g0.getN k).dist + e.size > (g0.getN e.to_node).dist
    · rw [if_pos hrel] at hf
      refine presRel_trans (presRel_trans
        (aupd_presRel g0 e.to_node
          (fun nd =>
            { nd with
              dist := (g0.getN k).dist + e.size
              prev := some e }) (fun nd => rfl))
        (aupd_presRel _ k (fun nd => { nd with next := some e })
          (fun nd => rfl)))
        (ih _ _ _ hf)
    · rw [if_neg hrel] at hf
      cases hf
      exact presRel_refl g0

theorem traverseK_pres : ∀ (fuel : Nat) (g : Graph) (k : Key) (fw : Bool)
    (g' : Graph), traverseK fuel g k fw = .ok g' → presRel g g' := by
  intro fuel
  induction fuel with
  | zero =>
    intro g k fw g' h
    exact absurd h (by simp [traverseK])
  | succ fuel ih =>
    intro g k fw g' h
    rw [traverseK] at h
    by_cases hk : (g.getN k).known_dist ≠ none
    · rw [if_pos hk] at h
      cases h
      exact presRel_refl g
    · rw [if_neg hk] at h
      refine foldl_except_pres presRel presRel_refl
        (fun a b c => presRel_trans) _ ?_ (fun err e => rfl) _ _ _ h
      intro g0 e g'' hf
      dsimp only at hf
      by_cases hrel : (g0.getN k).dist + e.size > (g0.getN e.to_node).dist
      · rw [if_pos hrel] at hf
        refine presRel_trans (presRel_trans
          (aupd_presRel g0 e.to_node
            (fun nd =>
              { nd with
                dist := (g0.getN k).dist + e.size
                prev := some e }) (fun nd => rfl))
          (aupd_presRel _ k (fun nd => { nd with next := some e })
            (fun nd => rfl)))
          (ih _ _ _ _ hf)
      · rw [if_neg hrel] at hf
        cases hf
        exact presRel_refl g0

theorem lptk_pres {fuel : Nat} {g : Graph} {k : Key} {fw : Bool} {g' : Graph}
    (h : g.longest_path_to_known fuel k fw = .ok g') : presRel g g' := by
  simp only [Graph.longest_path_to_known] at h
  exact presRel_trans (presRel_trans
    (⟨reset_shape g, reset_kEq g⟩ : presRel g g.reset)
    (⟨setDist_shape _ _ _, setDist_kEq _ _ _⟩ :
      presRel g.reset ((g.reset).setDist k 0)))
    (traverseK_pres _ _ _ _ _ h)

theorem lfp_pres {fuel : Nat} {g : Graph} {s : Key} {g' : Graph}
    (h : g.longest_forward_path fuel s = .ok g') : presRel g g' := by
  simp only [Graph.longest_forward_path] at h
  cases htr : traverseF fuel ((g.reset).setDist s 0) s with
  | error err => rw [htr] at h; cases h
  | ok g2 =>
    rw [htr] at h
    cases h
    exact presRel_trans (presRel_trans
      (⟨reset_shape g, reset_kEq g⟩ : presRel g g.reset)
      (⟨setDist_shape _ _ _, setDist_kEq _ _ _⟩ :
        presRel g.reset ((g.reset).setDist s 0)))
      (traverse_pres _ _ _ _ htr)

theorem pathWalk_pres : ∀ (fuel : Nat) (g : Graph) (u : List Key) (k : Key)
    (g' : Graph) (u' : List Key), pathWalk fuel g u k = .ok (g', u') →
    (∀ j ∈ g.nodes.map Prod.fst, j ∈ u ∨ j = Key.str "start" ∨ j = k ∨
      ((g.getN j).known_dist).isSome) →
    shapeEq g g' ∧ kMono g g' ∧
    (∀ j ∈ g'.nodes.map Prod.fst, j ∈ u' ∨ j = Key.str "start" ∨
      ((g'.getN j).known_dist).isSome) := by
  intro fuel
  induction fuel with
  | zero =>
    intro g u k g' u' h hc
    exact absurd h (by simp [pathWalk])
  | succ fuel ih =>
    intro g u k g' u' h hc
    simp only [pathWalk] at h
    by_cases hks : k = Key.str "start"
    · rw [if_pos hks] at h
      cases h
      refine ⟨shapeEq_refl g, fun j hj => hj, ?_⟩
      intro j hj
      rcases hc j hj with hj1 | hj1 | hj1 | hj1
      · exact Or.inl hj1
      · exact Or.inr (Or.inl hj1)
      · exact Or.inr (Or.inl (hj1.trans hks))
      · exact Or.inr (Or.inr hj1)
    · rw [if_neg hks] at h
      cases hp : ((g.setKnown k (g.getN k).dist).getN k).prev with
      | none => rw [hp] at h; cases h
      | some e =>
        rw [hp] at h
        have hinv : ∀ j ∈ (g.setKnown k (g.getN k).dist).nodes.map Prod.fst,
            j ∈ u.erase k ∨ j = Key.str "start" ∨ j = e.from_node ∨
            (((g.setKnown k (g.getN k).dist).getN j).known_dist).isSome := by
          intro j hj
          rw [(setKnown_shape g k (g.getN k).dist).2.2.2] at hj
          by_cases hjk : j = k
          · subst hjk
            exact Or.inr (Or.inr (Or.inr (setKnown_sets _ hj)))
          · rcases hc j hj with hj1 | hj1 | hj1 | hj1
            · exact Or.inl ((List.mem_erase_of_ne hjk).mpr hj1)
            · exact Or.inr (Or.inl hj1)
            · exact absurd hj1 hjk
            · exact Or.inr (Or.inr (Or.inr (setKnown_kMono g k _ j hj1)))
        obtain ⟨hs, hm, hcov⟩ := ih _ _ _ _ _ h hinv
        refine ⟨shapeEq_trans (setKnown_shape g k _) hs,
          kMono_trans (setKnown_kMono g k _) hm, hcov⟩

theorem assign_fixed_spec {g : Graph} {k : Key} {u : List Key} {g1 : Graph}
    (h : g.assign_fixed k u = some g1) : ∃ d, g1 = g.setKnown k d := by
  unfold Graph.assign_fixed at h
  cases hf : (g.getN k).fedges.find? (fun e =>
      !e.stretch && !(u.contains e.to_node)
        && !(e.to_node = Key.str "end" : Bool)) with
  | some e =>
    rw [hf] at h
    exact ⟨_, (Option.some_injective _ h).symm⟩
  | none =>
    rw [hf] at h
    cases hr : (g.getN k).redges.find? (fun e =>
        !e.stretch && !(u.contains e.from_node)
          && !(e.from_node = Key.str "start" : Bool)) with
    | some e =>
      rw [hr] at h
      exact ⟨_, (Option.some_injective _ h).symm⟩
    | none => rw [hr] at h; cases h

theorem fixedScan_spec : ∀ (cand : List Key) (g : Graph) (u : List Key)
    (k : Key) (g1 : Graph), fixedScan g u cand = some (k, g1) →
    ∃ d, g1 = g.setKnown k d := by
  intro cand
  induction cand with
  | nil => intro g u k g1 h; cases h
  | cons c t ih =>
    intro g u k g1 h
    rw [fixedScan] at h
    cases ha : g.assign_fixed c u with
    | some g2 =>
      rw [ha] at h
      obtain ⟨h1, h2⟩ := Prod.mk.injEq .. ▸ (Option.some_injective _ h)
      subst h1
      obtain ⟨d, hd⟩ := assign_fixed_spec ha
      exact ⟨d, h2 ▸ hd⟩
    | none =>
      rw [ha] at h
      exact ih g u k g1 h

theorem fixedLoop_pres : ∀ (n : Nat) (g : Graph) (u : List Key),
    (∀ j ∈ g.nodes.map Prod.fst, j ∈ u ∨ j = Key.str "start" ∨
      ((g.getN j).known_dist).isSome) →
    shapeEq g (fixedLoop n g u).1 ∧ kMono g (fixedLoop n g u).1 ∧
    (∀ j ∈ (fixedLoop n g u).1.nodes.map Prod.fst,
      j ∈ (fixedLoop n g u).2 ∨ j = Key.str "start" ∨
      (((fixedLoop n g u).1.getN j).known_dist).isSome) := by
  intro n
  induction n with
  | zero =>
    intro g u hc
    exact ⟨shapeEq_refl g, fun j hj => hj, hc⟩
  | succ n ih =>
    intro g u hc
    rw [fixedLoop]
    cases hs : fixedScan g u u with
    | none => exact ⟨shapeEq_refl g, fun j hj => hj, hc⟩
    | some kg =>
      obtain ⟨d, hd⟩ := fixedScan_spec u g u kg.1 kg.2 (by rw [hs])
      have hinv : ∀ j ∈ kg.2.nodes.map Prod.fst, j ∈ u.erase kg.1 ∨
          j = Key.str "start" ∨ ((kg.2.getN j).known_dist).isSome := by
        intro j hj
        rw [hd] at hj
        rw [(setKnown_shape g kg.1 d).2.2.2] at hj
        by_cases hjk : j = kg.1
        · subst hjk
          exact Or.inr (Or.inr (hd ▸ setKnown_sets _ hj))
        · rcases hc j hj with hj1 | hj1 | hj1
          · exact Or.inl ((List.mem_erase_of_ne hjk).mpr hj1)
          · exact Or.inr (Or.inl hj1)
          · exact Or.inr (Or.inr (hd ▸ setKnown_kMono g kg.1 d j hj1))
      obtain ⟨hsh, hm, hcov⟩ := ih kg.2 (u.erase kg.1) hinv
      exact ⟨shapeEq_trans (hd ▸ setKnown_shape g kg.1 d) hsh,
        kMono_trans (hd ▸ setKnown_kMono g kg.1 d) hm, hcov⟩

theorem stretch_step_pres {fuel : Nat} {g : Graph} {k : Key} {gr : Graph}
    (h : g.stretch_step fuel k = .ok gr) :
    shapeEq g gr ∧ kMono g gr ∧
    (k ∈ g.nodes.map Prod.fst → ((gr.getN k).known_dist).isSome) := by
  unfold Graph.stretch_step at h
  cases h1 : g.longest_path_to_known fuel k true with
  | error e => rw [h1] at h; cases h
  | ok g1 =>
    simp only [h1] at h
    cases h2 : g1.longest_path_to_known fuel k false with
    | error e => rw [h2] at h; cases h
    | ok g2 =>
      simp only [h2] at h
      have hp : presRel g g2 := presRel_trans (lptk_pres h1) (lptk_pres h2)
      have hfin : ∀ d : ℚ, gr = g2.setKnown k d →
          shapeEq g gr ∧ kMono g gr ∧
          (k ∈ g.nodes.map Prod.fst → ((gr.getN k).known_dist).isSome) := by
        intro d hd
        subst hd
        refine ⟨shapeEq_trans hp.1 (setKnown_shape g2 k d),
          kMono_trans (kEq_mono hp.2) (setKnown_kMono g2 k d), ?_⟩
        intro hk
        rw [← hp.1.2.2.2] at hk
        exact setKnown_sets d hk
      split at h
      · split at h
        · cases h
        · exact hfin _ (Except.ok.injEq .. ▸ h).symm
      · split at h
        · split at h
          · cases h
          · exact hfin _ (Except.ok.injEq .. ▸ h).symm
        · split at h
          · split at h
            · cases h
            · split at h
              · exact hfin _ (Except.ok.injEq .. ▸ h).symm
              · split at h
                · exact hfin _ (Except.ok.injEq .. ▸ h).symm
                · exact hfin _ (Except.ok.injEq .. ▸ h).symm
          · cases h

theorem stretchPass_pres : ∀ (u : List Key) (fuel : Nat) (g g' : Graph),
    stretchPass fuel g u = .ok g' →
    shapeEq g g' ∧ kMono g g' ∧
    (∀ j ∈ u, j ∈ g.nodes.map Prod.fst →
      ((g'.getN j).known_dist).isSome) := by
  intro u
  induction u with
  | nil =>
    intro fuel g g' h
    cases h
    exact ⟨shapeEq_refl g, fun j hj => hj, by simp⟩
  | cons k t ih =>
    intro fuel g g' h
    rw [stretchPass] at h
    cases hs : g.stretch_step fuel k with
    | error e => rw [hs] at h; cases h
    | ok g1 =>
      rw [hs] at h
      obtain ⟨hsh1, hm1, hk1⟩ := stretch_step_pres hs
      obtain ⟨hsh2, hm2, hall⟩ := ih fuel g1 g' h
      refine ⟨shapeEq_trans hsh1 hsh2, kMono_trans hm1 hm2, ?_⟩
      intro j hj hjk
      rcases List.mem_cons.mp hj with hj1 | hj1
      · subst hj1
        exact hm2 j (hk1 hjk)
      · exact hall j hj1 (by rw [hsh1.2.2.2]; exact hjk)

theorem extractGo_spec : ∀ (l : List String) (g : Graph)
    (pos : List (String × Option ℚ)), extractGo g l = .ok pos →
    (∀ j ∈ g.nodes.map Prod.fst, j = Key.str "start" ∨
      ((g.getN j).known_dist).isSome) →
    pos.map Prod.fst = l ∧ ∀ p ∈ pos, p.2 ≠ none := by
  intro l
  induction l with
  | nil =>
    intro g pos h hc
    cases h
    exact ⟨rfl, by simp⟩
  | cons n t ih =>
    intro g pos h hc
    rw [extractGo] at h
    cases ha : alook g.nodes (Key.grp (g.cnodes n)) with
    | none => rw [ha] at h; cases h
    | some nd =>
      rw [ha] at h
      cases hgo : extractGo g t with
      | error e => rw [hgo] at h; cases h
      | ok rest =>
        rw [hgo] at h
        cases h
        obtain ⟨h1, h2⟩ := ih g rest hgo hc
        refine ⟨by simp [h1], ?_⟩
        intro p hp
        rcases List.mem_cons.mp hp with hp1 | hp1
        · subst hp1
          have hmem : Key.grp (g.cnodes n) ∈ g.nodes.map Prod.fst :=
            (alook_isSome_iff_mem _ _).mp (by rw [ha]; rfl)
          rcases hc _ hmem with hj | hj
          · cases hj
          · have : (g.getN (Key.grp (g.cnodes n))).known_dist = nd.known_dist := by
              simp [Graph.getN, ha]
            rw [this] at hj
            simp only [ne_eq]
            exact Option.isSome_iff_ne_none.mp hj
        · exact h2 p hp1

theorem add_node_frame (g : Graph) (k : Key) :
    (g.add_node k).name = g.name ∧ (g.add_node k).domain = g.domain ∧
      (g.add_node k).cnodes = g.cnodes := by
  unfold Graph.add_node
  split <;> exact ⟨rfl, rfl, rfl⟩

theorem augStep_frame (g : Graph) (k : Key) :
    (augStep g k).name = g.name ∧ (augStep g k).domain = g.domain ∧
      (augStep g k).cnodes = g.cnodes := by
  simp only [augStep, Graph.add_edges]
  split <;> split <;> exact ⟨rfl, rfl, rfl⟩

theorem add_start_nodes_frame (g : Graph) :
    g.add_start_nodes.name = g.name ∧
      g.add_start_nodes.domain = g.domain ∧
      g.add_start_nodes.cnodes = g.cnodes := by
  rw [Graph.add_start_nodes]
  by_cases h : (alook g.nodes (Key.str "start")).isSome
  · rw [if_pos h]; exact ⟨rfl, rfl, rfl⟩
  · rw [if_neg h]
    have base := add_node_frame (g.add_node (Key.str "start")) (Key.str "end")
    have base0 := add_node_frame g (Key.str "start")
    generalize (g.nodes.map Prod.fst) = ks
    have : ∀ (ks : List Key) (gb : Graph),
        (ks.foldl augStep gb).name = gb.name ∧
        (ks.foldl augStep gb).domain = gb.domain ∧
        (ks.foldl augStep gb).cnodes = gb.cnodes := by
      intro ks
      induction ks with
      | nil => intro gb; exact ⟨rfl, rfl, rfl⟩
      | cons k t ih =>
        intro gb
        simp only [List.foldl_cons]
        obtain ⟨h1, h2, h3⟩ := ih (augStep gb k)
        obtain ⟨a1, a2, a3⟩ := augStep_frame gb k
        exact ⟨h1.trans a1, h2.trans a2, h3.trans a3⟩
    obtain ⟨h1, h2, h3⟩ := this ks
      ((g.add_node (Key.str "start")).add_node (Key.str "end"))
    exact ⟨(h1.trans base.1).trans base0.1,
      (h2.trans base.2.1).trans base0.2.1,
      (h3.trans base.2.2).trans base0.2.2⟩

/-- C4 (amended, the positive half): if analyse succeeds, the returned
position map lists exactly the known connection points, in table order, and
none of the returned coordinates is null. -/
theorem claim_C4_ok_positions_total (fuel : Nat) (g : Graph)
    (pos : List (String × Option ℚ)) (ext : Option ℚ)
    (h : g.analyse fuel = .ok (pos, ext)) :
    pos.map Prod.fst = g.domain ∧ ∀ p ∈ pos, p.2 ≠ none := by
  simp only [Graph.analyse] at h
  split at h
  · -- the no-real-nodes early return
    cases h
    constructor
    · rw [List.map_map]
      have : (Prod.fst ∘ fun n => ((n : String), some (0 : ℚ))) = id := by
        funext n; rfl
      rw [this, List.map_id, (add_start_nodes_frame g).2.1]
    · intro p hp
      obtain ⟨n, _, hn⟩ := List.mem_map.mp hp
      rw [← hn]
      simp
  · rename_i hne
    cases hlfp : (g.add_start_nodes).longest_forward_path fuel
        (Key.str "start") with
    | error e => rw [hlfp] at h; cases h
    | ok g2 =>
      simp only [hlfp] at h
      cases hpw : pathWalk (g2.nodes.length + 1) g2
          ((g.add_start_nodes.nodes.map Prod.fst).filter
            (fun k => !(k = Key.str "start" : Bool) &&
              !(k = Key.str "end" : Bool))) (Key.str "end") with
      | error e => rw [hpw] at h; cases h
      | ok pr =>
        obtain ⟨g3, u1⟩ := pr
        simp only [hpw] at h
        cases hsp : stretchPass fuel (fixedLoop u1.length g3 u1).1
            (fixedLoop u1.length g3 u1).2 with
        | error e => rw [hsp] at h; cases h
        | ok g4 =>
          simp only [hsp] at h
          cases hex : g4.extract with
          | error e => rw [hex] at h; cases h
          | ok pos0 =>
            simp only [hex] at h
            cases h
            -- invariants along the passes
            have hp2 : presRel (g.add_start_nodes) g2 := lfp_pres hlfp
            have hcov2 : ∀ j ∈ g2.nodes.map Prod.fst,
                j ∈ ((g.add_start_nodes.nodes.map Prod.fst).filter
                  (fun k => !(k = Key.str "start" : Bool) &&
                    !(k = Key.str "end" : Bool))) ∨
                j = Key.str "start" ∨ j = Key.str "end" ∨
                ((g2.getN j).known_dist).isSome := by
              intro j hj
              rw [hp2.1.2.2.2] at hj
              by_cases hjs : j = Key.str "start"
              · exact Or.inr (Or.inl hjs)
              · by_cases hje : j = Key.str "end"
                · exact Or.inr (Or.inr (Or.inl hje))
                · refine Or.inl (List.mem_filter.mpr ⟨hj, ?_⟩)
                  simp [hjs, hje]
            obtain ⟨hs3, hm3, hcov3⟩ :=
              pathWalk_pres (g2.nodes.length + 1) g2 _ (Key.str "end")
                g3 u1 hpw hcov2
            obtain ⟨hs4, hm4, hcov4⟩ :=
              fixedLoop_pres u1.length g3 u1 hcov3
            obtain ⟨hs5, hm5, hall⟩ :=
              stretchPass_pres (fixedLoop u1.length g3 u1).2 fuel
                (fixedLoop u1.length g3 u1).1 g4 hsp
            have hfinal : ∀ j ∈ g4.nodes.map Prod.fst,
                j = Key.str "start" ∨ ((g4.getN j).known_dist).isSome := by
              intro j hj
              have hj1 : j ∈ (fixedLoop u1.length g3 u1).1.nodes.map
                  Prod.fst := by rw [← hs5.2.2.2]; exact hj
              rcases hcov4 j hj1 with hj2 | hj2 | hj2
              · exact Or.inr (hall j hj2 hj1)
              · exact Or.inl hj2
              · exact Or.inr (hm5 j hj2)
            obtain ⟨hmap, hvals⟩ := extractGo_spec g4.domain g4 pos hex hfinal
            refine ⟨?_, hvals⟩
            rw [hmap]
            rw [hs5.2.1, hs4.2.1, hs3.2.1, hp2.1.2.1,
              (add_start_nodes_frame g).2.1]

/-- Witness for C4 on a concrete successful run: the directly built chain
graph resolves, its position list covers exactly the three points, and no
coordinate is null. -/
theorem claim_C4_witness :
    [("a", some (0 : ℚ)), ("b", some 1), ("c", some 3)].map Prod.fst =
      chainGraph.domain ∧
    ∀ p ∈ [("a", some (0 : ℚ)), ("b", some 1), ("c", some 3)], p.2 ≠ none :=
  claim_C4_ok_positions_total 100 chainGraph _ (some 3) (by decide)

/-- C8 (amended): the resolver is a function of the presented graph alone —
identical presentations (same nodes and edges in the same stored order)
yield identical results.  Insertion-order independence fails, see the
counterexample. -/
theorem claim_C8_deterministic (fuel : Nat) (g1 g2 : Graph) (h : g1 = g2) :
    g1.analyse fuel = g2.analyse fuel := by rw [h]

/-- Witness for C8 at a concrete graph. -/
theorem claim_C8_witness :
    orderGraphA.analyse 100 = orderGraphA.analyse 100 :=
  claim_C8_deterministic 100 orderGraphA orderGraphA rfl
